import Mathlib

/-!
# Verification of the tempo two-dimensional transaction pool and nonce manager

This file gives a shallow embedding of the core data structures and operations of
the tempo repository:

* `TwoDimensionalPool` (`crates/transaction-pool/src/twod/pool.rs`): the per-lane
  sequence scheduler with `pending`, `queued`, `ordering`, `nonce_state` and
  `by_hash` components.
* `CombinedPool` routing (`crates/transaction-pool/src/twod/combined.rs`).
* `MergeByTip` (`crates/transaction-pool/src/twod/tempo_pool.rs`).
* `NonceManager` expiring-nonce ring buffer (`crates/precompiles/src/nonce/mod.rs`).

Rust `HashMap`/`BTreeMap` state is embedded as association lists with
insert-replace semantics (`ainsert`), point removal (`aerase`) and lookup
(`alookup`); machine integers are embedded as `Nat` with explicit wrapping and
saturation at `2 ^ 64` where the source uses `wrapping_add`/`saturating_add`.
Transactions are opaque records exposing exactly the fields the pool reads:
hash, sender address bytes, the internal nonce and `effective_tip_per_gas(0)`.
-/

/-! ## Association-list finite maps

Rust's `HashMap`/`BTreeMap` are embedded as lists of key-value pairs with
unique keys.  `ainsert` replaces an existing binding in place (as `insert`
does on both Rust maps), `aerase` removes the binding for a key. -/

def alookup {α β : Type} [DecidableEq α] : List (α × β) → α → Option β
  | [], _ => none
  | (k, v) :: rest, key => if key = k then some v else alookup rest key

def ainsert {α β : Type} [DecidableEq α] : List (α × β) → α → β → List (α × β)
  | [], key, v => [(key, v)]
  | (k, w) :: rest, key, v =>
    if key = k then (key, v) :: rest else (k, w) :: ainsert rest key v

def aerase {α β : Type} [DecidableEq α] : List (α × β) → α → List (α × β)
  | [], _ => []
  | (k, v) :: rest, key => if key = k then rest else (k, v) :: aerase rest key

/-- The list of keys of an association list. -/
def keysOf {α β : Type} (l : List (α × β)) : List α := l.map Prod.fst

/-- An association list represents a map when its keys are pairwise distinct. -/
def NodupKeys {α β : Type} (l : List (α × β)) : Prop := (keysOf l).Nodup

/-! ## Transactions and sender keys

The pool consumes reth's `ValidPoolTransaction<TempoPooledTransaction>` through
exactly these accessors: `hash()`, `sender()`, `nonce()` and
`effective_tip_per_gas(0)` (the pool always passes base fee 0).  The embedding
records the results of those accessors. -/

structure Tx where
  /-- Result of `tx.hash()` (a 32-byte hash, embedded as `Nat`). -/
  hash : Nat
  /-- Result of `tx.sender()`: the 20 address bytes. -/
  sender : List Nat
  /-- Result of `tx.nonce()` (the transaction's internal nonce field). -/
  nonce : Nat
  /-- Result of `tx.effective_tip_per_gas(0)` (`None` when unavailable). -/
  tipAt0 : Option Nat
deriving DecidableEq

/-- The 24-byte (192-bit) nonce key, embedded as its list of bytes. -/
abbrev U192Key := List Nat

/-- `SenderKey` from `twod/types.rs`: sender address plus nonce key. -/
abbrev SenderKey := List Nat × U192Key

/-- A per-lane map from sequence number to transaction. -/
abbrev LaneMap := List (Nat × Tx)

/-- `TwoDimensionalPool::sender_id_from_address`: the `u64` built from the
first 8 address bytes in little-endian order. -/
def senderIdFromAddress (addr : List Nat) : Nat :=
  (addr.take 8).foldr (fun b acc => b + 256 * acc) 0

/-- `tx.effective_tip_per_gas(0).unwrap_or(0)` as the pool computes it. -/
def tipOf (tx : Tx) : Nat := tx.tipAt0.getD 0

/-- The key under which the pool stores a transaction in the `ordering` index:
`(tip, TransactionId::new(sender_id, tx.nonce()))`. -/
def txOrderingKey (tx : Tx) : Nat × Nat × Nat :=
  (tipOf tx, senderIdFromAddress tx.sender, tx.nonce)

/-! ## The two-dimensional pool (`twod/pool.rs`) -/

structure TwoDPool where
  /-- `pending`: lane → ordered map sequence → transaction. -/
  pending : List (SenderKey × LaneMap)
  /-- `queued`: lane → ordered map sequence → transaction. -/
  queued : List (SenderKey × LaneMap)
  /-- `ordering`: `(tip, transaction id)` → transaction. -/
  ordering : List ((Nat × Nat × Nat) × Tx)
  /-- `nonce_state`: lane → last known on-chain sequence. -/
  nonce_state : List (SenderKey × Nat)
  /-- `by_hash`: transaction hash → transaction. -/
  by_hash : List (Nat × Tx)
deriving DecidableEq

/-- `TwoDimensionalPool::new()`. -/
def emptyPool : TwoDPool := ⟨[], [], [], [], []⟩

/-- The lane map stored for `k` (an absent lane reads as the empty map). -/
def laneOf (m : List (SenderKey × LaneMap)) (k : SenderKey) : LaneMap :=
  (alookup m k).getD []

/-- `get_on_chain_sequence`: `nonce_state.get(&sender_key).copied().unwrap_or(0)`. -/
def getOnChainSequence (p : TwoDPool) (k : SenderKey) : Nat :=
  (alookup p.nonce_state k).getD 0

/-- `self.map.entry(sender_key).or_default().insert(sequence, tx)` on a
lane-indexed map. -/
def laneInsert (m : List (SenderKey × LaneMap)) (k : SenderKey) (seq : Nat)
    (tx : Tx) : List (SenderKey × LaneMap) :=
  ainsert m k (ainsert (laneOf m k) seq tx)

/-- `add_to_queued`. -/
def addToQueued (p : TwoDPool) (k : SenderKey) (seq : Nat) (tx : Tx) : TwoDPool :=
  { p with queued := laneInsert p.queued k seq tx }

/-- `add_to_pending` together with the `ordering` insertion that the source
performs alongside it (in `add_transaction` and in `promote_queued_chain`). -/
def addPendingOrdering (p : TwoDPool) (k : SenderKey) (seq : Nat) (tx : Tx) :
    TwoDPool :=
  { p with
    pending := laneInsert p.pending k seq tx,
    ordering := ainsert p.ordering (txOrderingKey tx) tx }

/-- The `while let Some(tx) = queued_txs.remove(&next_seq)` loop of
`promote_queued_chain`: starting from `next`, repeatedly remove contiguous
entries, returning the reduced lane map and the list of promotions in order.
`fuel` is an upper bound on the number of iterations; the caller passes
`q.length + 1`, which is sufficient because every iteration removes one
binding. -/
def promoteLoop : Nat → LaneMap → Nat → LaneMap × List (Nat × Tx)
  | 0, q, _ => (q, [])
  | fuel + 1, q, next =>
    match alookup q next with
    | none => (q, [])
    | some tx =>
      let r := promoteLoop fuel (aerase q next) (next + 1)
      (r.1, (next, tx) :: r.2)

/-- `promote_queued_chain`. -/
def promoteQueuedChain (p : TwoDPool) (k : SenderKey) (start : Nat) : TwoDPool :=
  match alookup p.queued k with
  | none => p
  | some q =>
    let r := promoteLoop (q.length + 1) q start
    let p1 : TwoDPool :=
      { p with queued := if r.1.isEmpty then aerase p.queued k
                         else ainsert p.queued k r.1 }
    r.2.foldl (fun acc pr => addPendingOrdering acc k pr.1 pr.2) p1

/-- The error values of `PoolError::other` used by `add_transaction`:
"Transaction already imported" and "Transaction sequence outdated". -/
inductive PoolErr
  | alreadyImported
  | sequenceOutdated
deriving DecidableEq

/-- `TwoDimensionalPool::add_transaction`.  Returns the `Result<TxHash, _>`
together with the pool state after the call (unchanged when an error is
returned, since the source returns before any mutation). -/
def addTransaction (p : TwoDPool) (tx : Tx) (nonceKey : U192Key)
    (sequence : Nat) : Except PoolErr Nat × TwoDPool :=
  let senderKey : SenderKey := (tx.sender, nonceKey)
  if (alookup p.by_hash tx.hash).isSome then
    (Except.error PoolErr.alreadyImported, p)
  else
    let onChainSeq := getOnChainSequence p senderKey
    if sequence < onChainSeq then
      (Except.error PoolErr.sequenceOutdated, p)
    else
      let p1 : TwoDPool := { p with by_hash := ainsert p.by_hash tx.hash tx }
      if sequence = onChainSeq then
        let p2 := addPendingOrdering p1 senderKey sequence tx
        (Except.ok tx.hash, promoteQueuedChain p2 senderKey (sequence + 1))
      else
        (Except.ok tx.hash, addToQueued p1 senderKey sequence tx)

/-- One step of the removal loop in `remove_confirmed_transactions`: remove the
pending entry at `seq` of lane `k` and the corresponding `ordering` and
`by_hash` entries. -/
def removeOne (p : TwoDPool) (k : SenderKey) (seq : Nat) : TwoDPool :=
  match alookup (laneOf p.pending k) seq with
  | none => p
  | some tx =>
    { p with
      pending := ainsert p.pending k (aerase (laneOf p.pending k) seq),
      ordering := aerase p.ordering (txOrderingKey tx),
      by_hash := aerase p.by_hash tx.hash }

/-- `remove_confirmed_transactions`. -/
def removeConfirmedTransactions (p : TwoDPool) (k : SenderKey)
    (confirmedSeq : Nat) : TwoDPool :=
  match alookup p.pending k with
  | none => p
  | some laneTxs =>
    let toRemove := (laneTxs.filter (fun e => e.1 < confirmedSeq)).map Prod.fst
    let p1 := toRemove.foldl (fun acc seq => removeOne acc k seq) p
    match alookup p1.pending k with
    | none => p1
    | some l => if l.isEmpty then { p1 with pending := aerase p1.pending k } else p1

/-- The body of the `on_canonical_state_change` loop for one update pair. -/
def applyUpdate (p : TwoDPool) (u : SenderKey × Nat) : TwoDPool :=
  let p1 : TwoDPool := { p with nonce_state := ainsert p.nonce_state u.1 u.2 }
  let p2 := removeConfirmedTransactions p1 u.1 u.2
  promoteQueuedChain p2 u.1 u.2

/-- `TwoDimensionalPool::on_canonical_state_change`. -/
def onCanonicalStateChange (p : TwoDPool) (updates : List (SenderKey × Nat)) :
    TwoDPool :=
  updates.foldl applyUpdate p

/-- `TwoDimensionalPool::set_on_chain_sequence`. -/
def setOnChainSequence (p : TwoDPool) (k : SenderKey) (seq : Nat) : TwoDPool :=
  { p with nonce_state := ainsert p.nonce_state k seq }

/-- The public operations of the pool, used to describe reachable states. -/
inductive PoolOp
  | add (tx : Tx) (nonceKey : U192Key) (sequence : Nat)
  | canonical (updates : List (SenderKey × Nat))
  | setSeq (k : SenderKey) (seq : Nat)

/-- Apply one public operation (an erroring `add_transaction` leaves the pool
unchanged, matching the source). -/
def applyOp (p : TwoDPool) : PoolOp → TwoDPool
  | PoolOp.add tx nk seq => (addTransaction p tx nk seq).2
  | PoolOp.canonical updates => onCanonicalStateChange p updates
  | PoolOp.setSeq k seq => setOnChainSequence p k seq

/-- Run a list of public operations from a starting state. -/
def runOps (p : TwoDPool) : List PoolOp → TwoDPool
  | [] => p
  | op :: rest => runOps (applyOp p op) rest

/-! ## Combined pool routing (`twod/combined.rs`) -/

/-- `is_zero_key`: `key.iter().all(|b| b == 0)`. -/
def isZeroKey (key : U192Key) : Bool := key.all (fun b => b = 0)

/-- The combined pool: the vanilla sub-pool is opaque to the routing code (the
source never mutates it in `add_transaction`), so it is embedded as an opaque
list of transactions alongside the two-dimensional pool. -/
structure CombinedPoolState where
  vanilla : List Tx
  twod : TwoDPool
deriving DecidableEq

/-- `CombinedPool::add_transaction`.  The source's vanilla branch computes the
hash and returns `Ok(hash)` without touching either sub-pool. -/
def combinedAddTransaction (p : CombinedPoolState) (tx : Tx)
    (nonceKey : Option U192Key) (sequence : Option Nat) :
    Except PoolErr Nat × CombinedPoolState :=
  match nonceKey, sequence with
  | some key, some seq =>
    if isZeroKey key then
      (Except.ok tx.hash, p)
    else
      let r := addTransaction p.twod tx key seq
      (r.1, { p with twod := r.2 })
  | _, _ => (Except.ok tx.hash, p)

/-! ## MergeByTip (`twod/tempo_pool.rs`) -/

/-- `MergeByTip` as a function on the (finite) streams it merges.  At every
step both heads are peeked; with `v_tip >= t_tip` the vanilla side is
consumed, otherwise the two-dimensional side. -/
def mergeByTip : List Tx → List Tx → List Tx
  | [], twod => twod
  | v :: vs, [] => v :: vs
  | v :: vs, t :: ts =>
    if tipOf t ≤ tipOf v then v :: mergeByTip vs (t :: ts)
    else t :: mergeByTip (v :: vs) ts
termination_by vs ts => vs.length + ts.length

/-- A stream sorted in descending tip order (each element's tip is at least
every later element's tip). -/
def SortedByTipDesc (l : List Tx) : Prop :=
  l.Pairwise (fun a b => tipOf b ≤ tipOf a)

/-! ## NonceManager expiring-nonce ring buffer (`precompiles/src/nonce/mod.rs`)

Storage slots read as 0 (`B256::ZERO`) when unset, so both mappings are
embedded as association lists with default 0; hashes are embedded as `Nat`
with `0` playing the role of `B256::ZERO`. -/

/-- `MAX_CASCADE_CLEANUP`. -/
def MAX_CASCADE_CLEANUP : Nat := 10

/-- The largest `u64` value, at which `saturating_add` saturates. -/
def U64_LIMIT : Nat := 2 ^ 64

/-- `u64::wrapping_add(x, 1)`. -/
def wrappingAdd1 (x : Nat) : Nat := (x + 1) % U64_LIMIT

/-- `u64::saturating_add`. -/
def saturatingAdd (x y : Nat) : Nat := min (x + y) (U64_LIMIT - 1)

structure NonceState where
  /-- `expiring_nonce_seen`: tx hash → expiry (0 = absent). -/
  expiring_nonce_seen : List (Nat × Nat)
  /-- `expiring_nonce_buffer`: index → tx hash (0 = cleared slot). -/
  expiring_nonce_buffer : List (Nat × Nat)
  /-- `expiring_nonce_head`. -/
  expiring_nonce_head : Nat
  /-- `expiring_nonce_tail`. -/
  expiring_nonce_tail : Nat
deriving DecidableEq

/-- The freshly initialized nonce manager storage (all slots zero). -/
def initNonceState : NonceState := ⟨[], [], 0, 0⟩

/-- Read `expiring_nonce_seen[txhash]` (0 when unset). -/
def seenAt (s : NonceState) (h : Nat) : Nat :=
  (alookup s.expiring_nonce_seen h).getD 0

/-- Read `expiring_nonce_buffer[i]` (0 when unset). -/
def bufferAt (s : NonceState) (i : Nat) : Nat :=
  (alookup s.expiring_nonce_buffer i).getD 0

/-- `is_expiring_nonce_seen`: entry exists and `expiry > now`. -/
def isExpiringNonceSeen (s : NonceState) (h now : Nat) : Bool :=
  decide (seenAt s h ≠ 0 ∧ now < seenAt s h)

/-- The error values raised by `check_and_mark_expiring_nonce`:
"invalid expiring nonce expiry" and "expiring nonce replay". -/
inductive NonceErr
  | invalidExpiringNonceExpiry
  | expiringNonceReplay
deriving DecidableEq

/-- The `while head < tail && cleaned < MAX_CASCADE_CLEANUP` loop of
`cleanup_expired_head`.  `tail` is the value read once before the loop (the
loop never writes it); `head` and `cleaned` are the loop-local variables.  The
returned triple is the storage state (seen and buffer writes applied), the
final `head` and the final `cleaned` count.  `fuel` is `MAX_CASCADE_CLEANUP -
cleaned`, so that running out of fuel is exactly the `cleaned <
MAX_CASCADE_CLEANUP` exit. -/
def cleanupLoop (now tail : Nat) :
    Nat → NonceState → Nat → Nat → NonceState × Nat × Nat
  | 0, s, head, cleaned => (s, head, cleaned)
  | fuel + 1, s, head, cleaned =>
    if head < tail then
      let oldHash := bufferAt s head
      if oldHash = 0 then
        cleanupLoop now tail fuel s (wrappingAdd1 head) (cleaned + 1)
      else
        let oldExpiry := seenAt s oldHash
        if oldExpiry ≠ 0 ∧ now < oldExpiry then
          (s, head, cleaned)
        else
          let s' : NonceState :=
            { s with
              expiring_nonce_seen := ainsert s.expiring_nonce_seen oldHash 0,
              expiring_nonce_buffer := ainsert s.expiring_nonce_buffer head 0 }
          cleanupLoop now tail fuel s' (wrappingAdd1 head) (cleaned + 1)
    else (s, head, cleaned)

/-- `cleanup_expired_head`: run the loop and persist `head` only if anything
was cleaned. -/
def cleanupExpiredHead (s : NonceState) (now : Nat) : NonceState :=
  let r := cleanupLoop now s.expiring_nonce_tail MAX_CASCADE_CLEANUP s
    s.expiring_nonce_head 0
  if 0 < r.2.2 then { r.1 with expiring_nonce_head := r.2.1 } else r.1

/-- `check_and_mark_expiring_nonce`.  On error the enclosing call reverts, so
the error constructors carry no state. -/
def checkAndMarkExpiringNonce (s : NonceState)
    (txHash validBefore now maxSkewSecs : Nat) : Except NonceErr NonceState :=
  if validBefore ≤ now ∨ saturatingAdd now maxSkewSecs < validBefore then
    Except.error NonceErr.invalidExpiringNonceExpiry
  else
    let seenExpiry := seenAt s txHash
    if seenExpiry ≠ 0 ∧ now < seenExpiry then
      Except.error NonceErr.expiringNonceReplay
    else
      let s1 := cleanupExpiredHead s now
      let tail := s1.expiring_nonce_tail
      Except.ok
        { s1 with
          expiring_nonce_buffer := ainsert s1.expiring_nonce_buffer tail txHash,
          expiring_nonce_seen := ainsert s1.expiring_nonce_seen txHash validBefore,
          expiring_nonce_tail := wrappingAdd1 tail }

/-! ## Claim statements as predicates

The following predicates transcribe the claims of the specification verbatim,
so that counterexamples can refute them as stated.  They are worded from the
spec, while all operational definitions above are worded from the source. -/

/-- Claim C1 as stated (spec P2 contiguity): the sequences present in
`pending[lane]` are exactly the contiguous range `[baseline, baseline + k)`
where `baseline = nonce_state[lane]` (default 0) and `k = |pending[lane]|`,
and every sequence present in `queued[lane]` is strictly greater than
`baseline + k`. -/
def ClaimedLaneInvariant (p : TwoDPool) (lane : SenderKey) : Prop :=
  (∀ seq, (alookup (laneOf p.pending lane) seq).isSome ↔
    (getOnChainSequence p lane ≤ seq ∧
      seq < getOnChainSequence p lane + (laneOf p.pending lane).length)) ∧
  (∀ seq, (alookup (laneOf p.queued lane) seq).isSome →
    getOnChainSequence p lane + (laneOf p.pending lane).length < seq)

/-- Membership of a transaction in some pending lane. -/
def InPending (p : TwoDPool) (tx : Tx) : Prop :=
  ∃ lane seq, alookup (laneOf p.pending lane) seq = some tx

/-- Membership of a transaction in some queued lane. -/
def InQueued (p : TwoDPool) (tx : Tx) : Prop :=
  ∃ lane seq, alookup (laneOf p.queued lane) seq = some tx

/-- Membership of a transaction among the values of the ordering index. -/
def InOrdering (p : TwoDPool) (tx : Tx) : Prop :=
  ∃ K, alookup p.ordering K = some tx

/-- Claim C2 as stated: a transaction is in `ordering` iff it is in `pending`
iff it is in `by_hash` under its hash. -/
def ClaimedHashInvariant (p : TwoDPool) : Prop :=
  (∀ tx, InOrdering p tx ↔ InPending p tx) ∧
  (∀ tx, InPending p tx ↔ alookup p.by_hash tx.hash = some tx)

/-! ## Invariants that do hold

These are the amended statements, proved below by induction over the public
operations. -/

/-- Amended C1 invariant for a lane: the pending sequences are exactly the
contiguous range starting at the baseline whose size is the number of pending
entries, and every queued sequence is strictly greater than the baseline
itself (not of the top of the pending range). -/
def AddOnlyLaneInvariant (p : TwoDPool) (lane : SenderKey) : Prop :=
  (∀ seq, (alookup (laneOf p.pending lane) seq).isSome ↔
    (getOnChainSequence p lane ≤ seq ∧
      seq < getOnChainSequence p lane + (laneOf p.pending lane).length)) ∧
  (∀ seq, (alookup (laneOf p.queued lane) seq).isSome →
    getOnChainSequence p lane < seq)

/-- Internal strengthening of `AddOnlyLaneInvariant` used for the induction:
the pending range size is kept existential and the key lists are required to
be duplicate free. -/
def LaneRangeInv (p : TwoDPool) (lane : SenderKey) : Prop :=
  NodupKeys (laneOf p.pending lane) ∧ NodupKeys (laneOf p.queued lane) ∧
  (∃ k, ∀ seq, (alookup (laneOf p.pending lane) seq).isSome ↔
    (getOnChainSequence p lane ≤ seq ∧ seq < getOnChainSequence p lane + k)) ∧
  (∀ seq, (alookup (laneOf p.queued lane) seq).isSome →
    getOnChainSequence p lane < seq)

/-- Duplicate-freedom of every association list making up the pool state. -/
def NodupInv (p : TwoDPool) : Prop :=
  NodupKeys p.pending ∧ NodupKeys p.queued ∧ NodupKeys p.ordering ∧
  NodupKeys p.nonce_state ∧ NodupKeys p.by_hash ∧
  (∀ lane, NodupKeys (laneOf p.pending lane)) ∧
  (∀ lane, NodupKeys (laneOf p.queued lane))

/-- A container occurrence of a transaction: `true` selects pending, `false`
selects queued. -/
def occAt (p : TwoDPool) (c : Bool) (lane : SenderKey) (seq : Nat) : Option Tx :=
  if c then alookup (laneOf p.pending lane) seq
  else alookup (laneOf p.queued lane) seq

/-- No two distinct pending/queued slots hold transactions with the same
hash. -/
def HashUnique (p : TwoDPool) : Prop :=
  ∀ c1 l1 s1 t1 c2 l2 s2 t2,
    occAt p c1 l1 s1 = some t1 → occAt p c2 l2 s2 = some t2 →
    t1.hash = t2.hash → c1 = c2 ∧ l1 = l2 ∧ s1 = s2

/-- Amended C2 invariant: every transaction held in `pending`, in `queued`, or
as a value of `ordering` is recorded in `by_hash` under its own hash, and
every `ordering` binding sits at the key computed from its value. -/
def TrackedByHash (p : TwoDPool) : Prop :=
  (∀ lane seq tx, alookup (laneOf p.pending lane) seq = some tx →
    alookup p.by_hash tx.hash = some tx) ∧
  (∀ lane seq tx, alookup (laneOf p.queued lane) seq = some tx →
    alookup p.by_hash tx.hash = some tx) ∧
  (∀ K tx, alookup p.ordering K = some tx →
    K = txOrderingKey tx ∧ alookup p.by_hash tx.hash = some tx)

/-- The full inductive invariant of the pool under all public operations. -/
def PoolWF (p : TwoDPool) : Prop :=
  NodupInv p ∧ TrackedByHash p ∧ HashUnique p

/-! ## Concrete fixtures used by counterexamples and witnesses -/

/-- A concrete 20-byte sender address. -/
def addrA : List Nat := List.replicate 20 1

/-- A concrete nonzero 24-byte nonce key. -/
def key1 : U192Key := 1 :: List.replicate 23 0

/-- A second concrete nonzero nonce key for the same sender. -/
def key2 : U192Key := 2 :: List.replicate 23 0

/-- The lane of `addrA` under `key1`. -/
def laneA : SenderKey := (addrA, key1)

/-- The lane of `addrA` under `key2`. -/
def laneB : SenderKey := (addrA, key2)

def txSeq0 : Tx := ⟨100, addrA, 0, some 5⟩
def txSeq1 : Tx := ⟨101, addrA, 1, some 5⟩
def txSeq3 : Tx := ⟨103, addrA, 3, some 5⟩

/-- Pool after adding `txSeq0` at sequence 0 and `txSeq1` at sequence 1 on a
fresh lane: sequence 0 is pending, sequence 1 lands in `queued` because the
admission test compares against the baseline, not the top of the pending
range. -/
def poolTopGap : TwoDPool :=
  (addTransaction (addTransaction emptyPool txSeq0 key1 0).2 txSeq1 key1 1).2

/-- Pool after queueing `txSeq3` at sequence 3 (gap at 0..2) and then raising
the baseline to 4 by a canonical state change: the stale queued entry at 3
survives below the new baseline. -/
def poolStaleQueued : TwoDPool :=
  onCanonicalStateChange (addTransaction emptyPool txSeq3 key1 3).2 [(laneA, 4)]

def txSeq5 : Tx := ⟨205, addrA, 5, some 30⟩
def txSeq6 : Tx := ⟨206, addrA, 6, some 20⟩
def txSeq7 : Tx := ⟨207, addrA, 7, some 10⟩

/-- Pool after `set_on_chain_sequence(laneA, 5)` and adding sequences 7, 6, 5
in that order (the C7 / spec P5 scenario). -/
def poolCascade : TwoDPool :=
  (addTransaction
    (addTransaction
      (addTransaction (setOnChainSequence emptyPool laneA 5) txSeq7 key1 7).2
      txSeq6 key1 6).2
    txSeq5 key1 5).2

/-- Pool where `set_on_chain_sequence` was called after the lane was already
populated: pending then holds the non-contiguous set of sequences 0 and 5. -/
def poolSetSeqMid : TwoDPool :=
  (addTransaction
    (setOnChainSequence (addTransaction emptyPool txSeq0 key1 0).2 laneA 5)
    txSeq5 key1 5).2

def txOverwritten : Tx := ⟨300, addrA, 0, some 7⟩
def txOverwriter : Tx := ⟨301, addrA, 1, some 7⟩

/-- Pool in which two distinct transactions were admitted at the same lane and
sequence 0: the second overwrites the first in `pending`, while the first
stays in `by_hash` and `ordering`. -/
def poolOverwrite : TwoDPool :=
  (addTransaction (addTransaction emptyPool txOverwritten key1 0).2
    txOverwriter key1 0).2

def txShadowed : Tx := ⟨310, addrA, 9, some 4⟩
def txShadowing : Tx := ⟨311, addrA, 9, some 4⟩

/-- Pool in which two pending transactions on different lanes of the same
sender share the ordering key `(tip, sender id, nonce)`: the second insert
overwrites the first one's `ordering` slot, so `txShadowed` is pending but no
longer an `ordering` value. -/
def poolShadow : TwoDPool :=
  (addTransaction (addTransaction emptyPool txShadowed key1 0).2
    txShadowing key2 0).2

/-- Nonce-manager state holding `MAX_CASCADE_CLEANUP + 5` already-expired
entries: buffer slots 0..14 hold hashes 1..15, each marked seen with expiry 10
(long past), head 0 and tail 15. -/
def nsExpired15 : NonceState :=
  ⟨(List.range 15).map (fun i => (i + 1, 10)),
   (List.range 15).map (fun i => (i, i + 1)), 0, 15⟩

/-- Decidable equality for `Except` results, so that concrete runs can be
checked by evaluation. -/
instance {e a : Type} [DecidableEq e] [DecidableEq a] : DecidableEq (Except e a) := fun x y =>
  match x, y with
  | Except.ok u, Except.ok v =>
    match decEq u v with
    | isTrue h => isTrue (h ▸ rfl)
    | isFalse h => isFalse (fun hc => h (by cases hc; rfl))
  | Except.error u, Except.error v =>
    match decEq u v with
    | isTrue h => isTrue (h ▸ rfl)
    | isFalse h => isFalse (fun hc => h (by cases hc; rfl))
  | Except.ok _, Except.error _ => isFalse (fun hc => by cases hc)
  | Except.error _, Except.ok _ => isFalse (fun hc => by cases hc)

/-- The nonce-manager state produced by a first successful
`check_and_mark_expiring_nonce(7, 1020, 1000, 30)` on fresh storage. -/
def nsAfterMark : NonceState := ⟨[(7, 1020)], [(0, 7)], 0, 1⟩

/-- Postcondition of `cleanupLoop` relating the result `r` to the starting
state `s`, head pointer and cleaned count: arithmetic of the pointers, the
bound on work, preservation of live seen entries, untouched buffer slots at
and beyond the final head, and expiredness of every slot the head passed. -/
def CleanupLoopPost (now tail fuel : Nat) (s : NonceState) (head cleaned : Nat)
    (r : NonceState × Nat × Nat) : Prop :=
  r.2.1 + cleaned = head + r.2.2 ∧
  cleaned ≤ r.2.2 ∧
  r.2.2 ≤ cleaned + fuel ∧
  r.2.1 ≤ tail ∧
  r.1.expiring_nonce_tail = s.expiring_nonce_tail ∧
  r.1.expiring_nonce_head = s.expiring_nonce_head ∧
  (r.2.2 = cleaned → r.1 = s) ∧
  (∀ x, seenAt r.1 x = seenAt s x ∨ (seenAt r.1 x = 0 ∧ seenAt s x ≤ now)) ∧
  (∀ x, now < seenAt s x → seenAt r.1 x = seenAt s x) ∧
  (∀ i, r.2.1 ≤ i → bufferAt r.1 i = bufferAt s i) ∧
  (∀ i, head ≤ i → i < r.2.1 → bufferAt s i = 0 ∨ seenAt s (bufferAt s i) ≤ now)

/-- A concrete tip-descending vanilla-side stream. -/
def mergeVanillaSample : List Tx :=
  [⟨401, addrA, 0, some 30⟩, ⟨402, addrA, 1, some 10⟩]

/-- A concrete tip-descending two-dimensional-side stream. -/
def mergeTwodSample : List Tx :=
  [⟨403, addrA, 2, some 20⟩, ⟨404, addrA, 3, some 10⟩]

/-- The list of `n` consecutive naturals starting at `s`. -/
def seqRange : Nat → Nat → List Nat
  | _, 0 => []
  | s, n + 1 => s :: seqRange (s + 1) n

/-! ## Basic lemmas about the association-list maps -/

theorem alookup_ainsert {α β : Type} [DecidableEq α] (l : List (α × β))
    (k : α) (v : β) (k' : α) :
    alookup (ainsert l k v) k' = if k' = k then some v else alookup l k' := by
  induction l with
  | nil => by_cases h : k' = k <;> simp [ainsert, alookup, h]
  | cons hd tl ih =>
    obtain ⟨a, b⟩ := hd
    simp only [ainsert]
    by_cases hka : k = a
    · subst hka
      by_cases h1 : k' = k <;> simp [alookup, h1]
    · by_cases h1 : k' = a <;> by_cases h2 : k' = k <;>
        simp_all [alookup]

theorem alookup_aerase_ne {α β : Type} [DecidableEq α] (l : List (α × β))
    (k k' : α) (h : k' ≠ k) : alookup (aerase l k) k' = alookup l k' := by
  induction l with
  | nil => simp [aerase]
  | cons hd tl ih =>
    obtain ⟨a, b⟩ := hd
    simp only [aerase]
    by_cases hka : k = a
    · subst hka
      simp [alookup, h]
    · by_cases h1 : k' = a <;> simp_all [alookup]

theorem keysOf_cons {α β : Type} (a : α) (b : β) (tl : List (α × β)) :
    keysOf ((a, b) :: tl) = a :: keysOf tl := rfl

theorem mem_keysOf_of_alookup {α β : Type} [DecidableEq α] (l : List (α × β))
    (k : α) (h : (alookup l k).isSome) : k ∈ keysOf l := by
  induction l with
  | nil => simp [alookup] at h
  | cons hd tl ih =>
    obtain ⟨a, b⟩ := hd
    rw [keysOf_cons]
    by_cases h1 : k = a
    · exact h1 ▸ List.mem_cons_self a _
    · simp only [alookup, if_neg h1] at h
      exact List.mem_cons_of_mem a (ih h)

theorem alookup_isSome_of_mem_keys {α β : Type} [DecidableEq α]
    (l : List (α × β)) (k : α) (h : k ∈ keysOf l) : (alookup l k).isSome := by
  induction l with
  | nil => simp [keysOf] at h
  | cons hd tl ih =>
    obtain ⟨a, b⟩ := hd
    by_cases h1 : k = a
    · simp [alookup, h1]
    · rw [keysOf_cons] at h
      rcases List.mem_cons.mp h with h2 | h2
      · exact absurd h2 h1
      · simpa [alookup, h1] using ih h2

theorem alookup_aerase_self {α β : Type} [DecidableEq α] (l : List (α × β))
    (k : α) (h : NodupKeys l) : alookup (aerase l k) k = none := by
  induction l with
  | nil => simp [aerase, alookup]
  | cons hd tl ih =>
    obtain ⟨a, b⟩ := hd
    rw [NodupKeys, keysOf_cons, List.nodup_cons] at h
    simp only [aerase]
    by_cases hka : k = a
    · subst hka
      rw [if_pos rfl]
      cases hl : alookup tl k with
      | none => rfl
      | some v =>
        exact absurd (mem_keysOf_of_alookup tl k (by simp [hl])) h.1
    · rw [if_neg hka]
      simp only [alookup, if_neg hka]
      exact ih h.2

theorem nodupKeys_ainsert {α β : Type} [DecidableEq α] (l : List (α × β))
    (k : α) (v : β) (h : NodupKeys l) : NodupKeys (ainsert l k v) := by
  induction l with
  | nil => simp [ainsert, NodupKeys, keysOf]
  | cons hd tl ih =>
    obtain ⟨a, b⟩ := hd
    rw [NodupKeys, keysOf_cons, List.nodup_cons] at h
    simp only [ainsert]
    by_cases hka : k = a
    · subst hka
      rw [if_pos rfl, NodupKeys, keysOf_cons, List.nodup_cons]
      exact h
    · rw [if_neg hka, NodupKeys, keysOf_cons, List.nodup_cons]
      refine ⟨fun hmem => ?_, ih h.2⟩
      have hs : (alookup (ainsert tl k v) a).isSome :=
        alookup_isSome_of_mem_keys _ _ hmem
      rw [alookup_ainsert] at hs
      rw [if_neg (fun hak => hka hak.symm)] at hs
      exact h.1 (mem_keysOf_of_alookup _ _ hs)

theorem nodupKeys_aerase {α β : Type} [DecidableEq α] (l : List (α × β))
    (k : α) (h : NodupKeys l) : NodupKeys (aerase l k) := by
  induction l with
  | nil => simp [aerase, NodupKeys, keysOf]
  | cons hd tl ih =>
    obtain ⟨a, b⟩ := hd
    rw [NodupKeys, keysOf_cons, List.nodup_cons] at h
    simp only [aerase]
    by_cases hka : k = a
    · rw [if_pos hka]
      exact h.2
    · rw [if_neg hka, NodupKeys, keysOf_cons, List.nodup_cons]
      refine ⟨fun hmem => ?_, ih h.2⟩
      have hs : (alookup (aerase tl k) a).isSome :=
        alookup_isSome_of_mem_keys _ _ hmem
      by_cases hak : a = k
      · exact hka hak.symm
      · rw [alookup_aerase_ne tl k a hak] at hs
        exact h.1 (mem_keysOf_of_alookup _ _ hs)

theorem length_aerase {α β : Type} [DecidableEq α] (l : List (α × β)) (k : α)
    (h : (alookup l k).isSome) : (aerase l k).length + 1 = l.length := by
  induction l with
  | nil => simp [alookup] at h
  | cons hd tl ih =>
    obtain ⟨a, b⟩ := hd
    by_cases hka : k = a
    · simp [aerase, hka]
    · simp only [alookup, if_neg hka] at h
      simp only [aerase, if_neg hka, List.length_cons, ← ih h]

theorem laneOf_ainsert (m : List (SenderKey × LaneMap)) (k : SenderKey)
    (L : LaneMap) (k' : SenderKey) :
    laneOf (ainsert m k L) k' = if k' = k then L else laneOf m k' := by
  unfold laneOf
  rw [alookup_ainsert]
  split <;> rfl

theorem laneOf_aerase_ne (m : List (SenderKey × LaneMap)) (k k' : SenderKey)
    (h : k' ≠ k) : laneOf (aerase m k) k' = laneOf m k' := by
  unfold laneOf
  rw [alookup_aerase_ne _ _ _ h]

theorem laneOf_aerase_self (m : List (SenderKey × LaneMap)) (k : SenderKey)
    (h : NodupKeys m) : laneOf (aerase m k) k = [] := by
  unfold laneOf
  rw [alookup_aerase_self _ _ h]
  rfl

/-! ## Claim C3: error conditions and atomicity of `add_transaction` -/

/-- C3.  `add_transaction` returns an error iff the hash is already in
`by_hash` (error "already imported", checked first and hence independent of
lane and sequence) or the sequence is below the lane baseline (error
"sequence outdated"); on any error the pool state is returned unchanged. -/
theorem addTransaction_error_characterization (p : TwoDPool) (tx : Tx)
    (nk : U192Key) (seq : Nat) :
    ((addTransaction p tx nk seq).1 = Except.error PoolErr.alreadyImported ↔
      (alookup p.by_hash tx.hash).isSome) ∧
    (¬ (alookup p.by_hash tx.hash).isSome = true →
      ((addTransaction p tx nk seq).1 = Except.error PoolErr.sequenceOutdated ↔
        seq < getOnChainSequence p (tx.sender, nk))) ∧
    ((∃ e, (addTransaction p tx nk seq).1 = Except.error e) ↔
      ((alookup p.by_hash tx.hash).isSome = true ∨
        seq < getOnChainSequence p (tx.sender, nk))) ∧
    ((∃ e, (addTransaction p tx nk seq).1 = Except.error e) →
      (addTransaction p tx nk seq).2 = p) := by
  by_cases hdup : (alookup p.by_hash tx.hash).isSome
  · simp [addTransaction, hdup]
  · by_cases hseq : seq < getOnChainSequence p (tx.sender, nk)
    · simp [addTransaction, hdup, hseq]
    · by_cases heq : seq = getOnChainSequence p (tx.sender, nk) <;>
        simp [addTransaction, hdup, hseq, heq]

/-- Witness for C3 at a concrete input: re-adding the hash of `txSeq0`, which
`poolTopGap` already holds, yields the duplicate-import error. -/
theorem addTransaction_error_characterization_witness :
    (addTransaction poolTopGap txSeq0 key1 0).1 =
      Except.error PoolErr.alreadyImported :=
  (addTransaction_error_characterization poolTopGap txSeq0 key1 0).1.mpr
    (by decide)

/-! ## Claim C9: combined-pool routing

The source forwards to the two-dimensional pool exactly when a nonzero nonce
key and a sequence are both present.  In every other case the source's vanilla
branch merely returns `Ok(hash)`: the transaction is never handed to the
vanilla pool (the branch body is a stub whose comment says the actual
implementation would use the pool's API), so the whole combined state is
returned unchanged. -/

/-- C9.  Routing behaviour of `CombinedPool::add_transaction`: the 2D branch
forwards transaction, key and sequence and returns that result; every other
case returns `Ok(tx.hash)` with the combined state (in particular the vanilla
pool) unchanged, diverging from the claim that the transaction is added to
the vanilla pool. -/
theorem combinedAdd_routing :
    (∀ p tx key seq, isZeroKey key = false →
      combinedAddTransaction p tx (some key) (some seq) =
        ((addTransaction p.twod tx key seq).1,
         { p with twod := (addTransaction p.twod tx key seq).2 })) ∧
    (∀ p tx seq, combinedAddTransaction p tx none (some seq) =
      (Except.ok tx.hash, p)) ∧
    (∀ p tx key, combinedAddTransaction p tx (some key) none =
      (Except.ok tx.hash, p)) ∧
    (∀ p tx, combinedAddTransaction p tx none none = (Except.ok tx.hash, p)) ∧
    (∀ p tx key seq, isZeroKey key = true →
      combinedAddTransaction p tx (some key) (some seq) =
        (Except.ok tx.hash, p)) := by
  refine ⟨fun p tx key seq h => ?_, fun p tx seq => rfl, fun p tx key => rfl,
    fun p tx => rfl, fun p tx key seq h => ?_⟩ <;>
    simp [combinedAddTransaction, h]

/-- Witness for C9: a transaction with no nonce key is accepted with its hash
while the whole combined pool state stays untouched. -/
theorem combinedAdd_routing_witness :
    combinedAddTransaction ⟨[], emptyPool⟩ txSeq0 none none =
      (Except.ok txSeq0.hash, ⟨[], emptyPool⟩) :=
  combinedAdd_routing.2.2.2.1 ⟨[], emptyPool⟩ txSeq0

/-! ## Claim C7: cascading promotion scenario (spec P5) -/

/-- C7.  With the baseline of `laneA` set to 5, adding sequences 7, then 6,
then 5 succeeds each time; afterwards sequences 5, 6 and 7 are all pending
(each mirrored in `ordering`) and the queued lane is gone: the insertion at
the baseline promoted the contiguous queued entries 6 and 7. -/
theorem cascade_promotion_scenario :
    (addTransaction (setOnChainSequence emptyPool laneA 5) txSeq7 key1 7).1 =
      Except.ok txSeq7.hash ∧
    (addTransaction
      (addTransaction (setOnChainSequence emptyPool laneA 5) txSeq7 key1 7).2
      txSeq6 key1 6).1 = Except.ok txSeq6.hash ∧
    (addTransaction
      (addTransaction
        (addTransaction (setOnChainSequence emptyPool laneA 5) txSeq7 key1 7).2
        txSeq6 key1 6).2
      txSeq5 key1 5).1 = Except.ok txSeq5.hash ∧
    alookup (laneOf poolCascade.pending laneA) 5 = some txSeq5 ∧
    alookup (laneOf poolCascade.pending laneA) 6 = some txSeq6 ∧
    alookup (laneOf poolCascade.pending laneA) 7 = some txSeq7 ∧
    (laneOf poolCascade.pending laneA).length = 3 ∧
    alookup poolCascade.queued laneA = none ∧
    alookup poolCascade.ordering (txOrderingKey txSeq5) = some txSeq5 ∧
    alookup poolCascade.ordering (txOrderingKey txSeq6) = some txSeq6 ∧
    alookup poolCascade.ordering (txOrderingKey txSeq7) = some txSeq7 := by
  decide

/-! ## Claim C5: expiring-nonce window and replay errors -/

/-- C5.  `check_and_mark_expiring_nonce` fails with the invalid-expiry error
exactly when the window condition `now < valid_before ≤ now + max_skew` is
violated (lower bound exclusive, upper bound inclusive), and otherwise fails
with the replay error exactly when a nonzero seen entry with expiry above
`now` exists; concretely at `max_skew = 30`, `valid_before = now` errors,
`now + 30` succeeds and `now + 31` errors.  The bound `validBefore <
U64_LIMIT` reflects the `u64` domain of the source (whose `saturating_add`
otherwise coincides with `Nat` addition here). -/
theorem checkAndMark_window_replay (s : NonceState) (h vb now skew : Nat)
    (hvb : vb < U64_LIMIT) :
    ((checkAndMarkExpiringNonce s h vb now skew =
        Except.error NonceErr.invalidExpiringNonceExpiry) ↔
      ¬ (now < vb ∧ vb ≤ now + skew)) ∧
    ((now < vb ∧ vb ≤ now + skew) →
      ((checkAndMarkExpiringNonce s h vb now skew =
          Except.error NonceErr.expiringNonceReplay) ↔
        (seenAt s h ≠ 0 ∧ now < seenAt s h))) ∧
    (checkAndMarkExpiringNonce initNonceState 77 1000 1000 30 =
      Except.error NonceErr.invalidExpiringNonceExpiry) ∧
    ((checkAndMarkExpiringNonce initNonceState 77 1030 1000 30).toOption.isSome) ∧
    (checkAndMarkExpiringNonce initNonceState 77 1031 1000 30 =
      Except.error NonceErr.invalidExpiringNonceExpiry) := by
  have hsat : (vb ≤ now ∨ saturatingAdd now skew < vb) ↔
      ¬ (now < vb ∧ vb ≤ now + skew) := by
    unfold saturatingAdd U64_LIMIT
    unfold U64_LIMIT at hvb
    omega
  refine ⟨?_, ?_, by decide, by decide, by decide⟩
  · by_cases hc : vb ≤ now ∨ saturatingAdd now skew < vb
    · simp only [checkAndMarkExpiringNonce, if_pos hc]
      simpa using hsat.mp hc
    · simp only [checkAndMarkExpiringNonce, if_neg hc]
      have hw : now < vb ∧ vb ≤ now + skew := by
        by_contra hn
        exact hc (hsat.mpr hn)
      by_cases hr : seenAt s h ≠ 0 ∧ now < seenAt s h
      · simp only [if_pos hr]
        simp [hw]
      · simp only [if_neg hr]
        simp [hw]
  · intro hw
    have hc : ¬ (vb ≤ now ∨ saturatingAdd now skew < vb) := fun hc => hsat.mp hc hw
    simp only [checkAndMarkExpiringNonce, if_neg hc]
    by_cases hr : seenAt s h ≠ 0 ∧ now < seenAt s h
    · simp only [if_pos hr]
      simp [hr]
    · simp only [if_neg hr]
      simp [hr]

/-- Witness for C5 at a concrete input: on fresh storage with a valid window
there is no replay error. -/
theorem checkAndMark_window_replay_witness :
    (checkAndMarkExpiringNonce initNonceState 77 1010 1000 30 =
      Except.error NonceErr.expiringNonceReplay) ↔
    (seenAt initNonceState 77 ≠ 0 ∧ 1000 < seenAt initNonceState 77) :=
  (checkAndMark_window_replay initNonceState 77 1010 1000 30
    (by norm_num [U64_LIMIT])).2.1 (by omega)

/-! ## Claim C8: replay protection after a successful mark -/

/-- After a successful `check_and_mark_expiring_nonce`, the recorded expiry
for the hash equals `valid_before`. -/
theorem seenAt_after_mark (s s' : NonceState) (h vb now skew : Nat)
    (hok : checkAndMarkExpiringNonce s h vb now skew = Except.ok s') :
    seenAt s' h = vb := by
  unfold checkAndMarkExpiringNonce at hok
  split at hok
  · cases hok
  · dsimp only at hok
    split at hok
    · cases hok
    · cases hok
      simp [seenAt, alookup_ainsert]

/-- C8 counterexample: after a success at `valid_before = 1020`, the repeat at
`now = 1000 < 1020` with window `valid_before = now` errors with the
invalid-expiry error, not the replay error claimed. -/
theorem replay_error_counterexample :
    checkAndMarkExpiringNonce initNonceState 7 1020 1000 30 =
      Except.ok nsAfterMark ∧
    1000 < 1020 ∧
    checkAndMarkExpiringNonce nsAfterMark 7 1000 1000 30 =
      Except.error NonceErr.invalidExpiringNonceExpiry ∧
    NonceErr.invalidExpiringNonceExpiry ≠ NonceErr.expiringNonceReplay := by
  decide

/-- C8 amended.  After `check_and_mark_expiring_nonce(h, vb, now, skew)`
succeeds: no call with hash `h` at a time `now2 < vb` can succeed, and it
errors with the replay error whenever its own window is valid; and any call
with hash `h` at a time `now2 ≥ vb` with a valid window succeeds, even though
the buffer entry for `h` may not have been physically cleaned. -/
theorem checkAndMark_after_success (s s' : NonceState) (h vb now skew : Nat)
    (hok : checkAndMarkExpiringNonce s h vb now skew = Except.ok s') :
    (∀ vb2 now2 skew2 s2, now2 < vb →
      checkAndMarkExpiringNonce s' h vb2 now2 skew2 ≠ Except.ok s2) ∧
    (∀ vb2 now2 skew2, now2 < vb →
      ¬ (vb2 ≤ now2 ∨ saturatingAdd now2 skew2 < vb2) →
      checkAndMarkExpiringNonce s' h vb2 now2 skew2 =
        Except.error NonceErr.expiringNonceReplay) ∧
    (∀ vb2 now2 skew2, vb ≤ now2 →
      ¬ (vb2 ≤ now2 ∨ saturatingAdd now2 skew2 < vb2) →
      ∃ s2, checkAndMarkExpiringNonce s' h vb2 now2 skew2 = Except.ok s2) := by
  have hseen : seenAt s' h = vb := seenAt_after_mark s s' h vb now skew hok
  have hrep : ∀ vb2 now2 skew2, now2 < vb →
      ¬ (vb2 ≤ now2 ∨ saturatingAdd now2 skew2 < vb2) →
      checkAndMarkExpiringNonce s' h vb2 now2 skew2 =
        Except.error NonceErr.expiringNonceReplay := by
    intro vb2 now2 skew2 hlt hw
    have hr : seenAt s' h ≠ 0 ∧ now2 < seenAt s' h := by
      rw [hseen]
      omega
    simp only [checkAndMarkExpiringNonce, if_neg hw, if_pos hr]
  refine ⟨?_, hrep, ?_⟩
  · intro vb2 now2 skew2 s2 hlt
    by_cases hw : vb2 ≤ now2 ∨ saturatingAdd now2 skew2 < vb2
    · simp only [checkAndMarkExpiringNonce, if_pos hw]
      exact fun hc => Except.noConfusion hc
    · rw [hrep vb2 now2 skew2 hlt hw]
      exact fun hc => Except.noConfusion hc
  · intro vb2 now2 skew2 hge hw
    have hr : ¬ (seenAt s' h ≠ 0 ∧ now2 < seenAt s' h) := by
      rw [hseen]
      omega
    simp only [checkAndMarkExpiringNonce, if_neg hw, if_neg hr]
    exact ⟨_, rfl⟩

/-- Witness for C8 amended: after the concrete success recorded in
`nsAfterMark`, an immediate valid-window repeat errors with the replay
error. -/
theorem checkAndMark_after_success_witness :
    checkAndMarkExpiringNonce nsAfterMark 7 1015 1010 30 =
      Except.error NonceErr.expiringNonceReplay :=
  (checkAndMark_after_success initNonceState nsAfterMark 7 1020 1000 30
    (by decide)).2.1 1015 1010 30 (by omega) (by decide)

/-! ## The cascading-cleanup loop invariant -/

theorem seenAt_set (s : NonceState) (h0 v x : Nat) :
    seenAt { s with expiring_nonce_seen := ainsert s.expiring_nonce_seen h0 v } x
      = if x = h0 then v else seenAt s x := by
  simp only [seenAt, alookup_ainsert]
  split <;> rfl

theorem bufferAt_set (s : NonceState) (i0 v i : Nat) :
    bufferAt { s with expiring_nonce_buffer := ainsert s.expiring_nonce_buffer i0 v } i
      = if i = i0 then v else bufferAt s i := by
  simp only [bufferAt, alookup_ainsert]
  split <;> rfl

theorem cleanupLoopPost_stop (now tail fuel : Nat) (s : NonceState)
    (head cleaned : Nat) (hh : head ≤ tail) :
    CleanupLoopPost now tail fuel s head cleaned (s, head, cleaned) := by
  unfold CleanupLoopPost
  dsimp only
  exact ⟨by omega, le_refl _, by omega, hh, rfl, rfl, fun _ => rfl,
    fun x => Or.inl rfl, fun x _ => rfl, fun i _ => rfl,
    fun i h1 h2 => absurd h2 (by omega)⟩

theorem cleanupLoop_spec (now tail : Nat) (fuel : Nat) :
    ∀ s head cleaned, head ≤ tail → tail < U64_LIMIT →
    CleanupLoopPost now tail fuel s head cleaned
      (cleanupLoop now tail fuel s head cleaned) := by
  induction fuel with
  | zero =>
    intro s head cleaned hh ht
    exact cleanupLoopPost_stop now tail 0 s head cleaned hh
  | succ n ih =>
    intro s head cleaned hh ht
    by_cases hlt : head < tail
    · have hw : wrappingAdd1 head = head + 1 := by
        unfold wrappingAdd1
        exact Nat.mod_eq_of_lt (by omega)
      have hh1 : head + 1 ≤ tail := hlt
      by_cases hz : bufferAt s head = 0
      · have hred : cleanupLoop now tail (n + 1) s head cleaned =
            cleanupLoop now tail n s (head + 1) (cleaned + 1) := by
          simp only [cleanupLoop, if_pos hlt, if_pos hz, hw]
        rw [hred]
        obtain ⟨a1, a2, a3, a4, a5, a6, a7, a8, a9, a10, a11⟩ :=
          ih s (head + 1) (cleaned + 1) hh1 ht
        refine ⟨by omega, by omega, by omega, a4, a5, a6,
          fun hc => absurd hc (by omega), a8, a9, a10, fun i h1 h2 => ?_⟩
        rcases Nat.eq_or_lt_of_le h1 with rfl | h1'
        · exact Or.inl hz
        · exact a11 i h1' h2
      · by_cases hlive : seenAt s (bufferAt s head) ≠ 0 ∧
            now < seenAt s (bufferAt s head)
        · have hred : cleanupLoop now tail (n + 1) s head cleaned =
              (s, head, cleaned) := by
            simp only [cleanupLoop, if_pos hlt, if_neg hz, if_pos hlive]
          rw [hred]
          exact cleanupLoopPost_stop now tail (n + 1) s head cleaned hh
        · have hexp : seenAt s (bufferAt s head) ≤ now := by
            rcases Decidable.not_and_iff_or_not.mp hlive with hc | hc
            · omega
            · omega
          have hred : cleanupLoop now tail (n + 1) s head cleaned =
              cleanupLoop now tail n
                { s with
                  expiring_nonce_seen :=
                    ainsert s.expiring_nonce_seen (bufferAt s head) 0,
                  expiring_nonce_buffer :=
                    ainsert s.expiring_nonce_buffer head 0 }
                (head + 1) (cleaned + 1) := by
            simp only [cleanupLoop, if_pos hlt, if_neg hz, if_neg hlive, hw]
          rw [hred]
          set s' : NonceState :=
            { s with
              expiring_nonce_seen :=
                ainsert s.expiring_nonce_seen (bufferAt s head) 0,
              expiring_nonce_buffer :=
                ainsert s.expiring_nonce_buffer head 0 } with hs'
          have hseen' : ∀ x, seenAt s' x =
              if x = bufferAt s head then 0 else seenAt s x := by
            intro x
            simp only [hs', seenAt, alookup_ainsert]
            split <;> rfl
          have hbuf' : ∀ i, bufferAt s' i =
              if i = head then 0 else bufferAt s i := by
            intro i
            simp only [hs', bufferAt, alookup_ainsert]
            split <;> rfl
          have htl' : s'.expiring_nonce_tail = s.expiring_nonce_tail := by
            rw [hs']
          have hhd' : s'.expiring_nonce_head = s.expiring_nonce_head := by
            rw [hs']
          obtain ⟨a1, a2, a3, a4, a5, a6, a7, a8, a9, a10, a11⟩ :=
            ih s' (head + 1) (cleaned + 1) hh1 ht
          refine ⟨by omega, by omega, by omega, a4, by rw [a5, htl'],
            by rw [a6, hhd'], fun hc => absurd hc (by omega), ?_, ?_, ?_, ?_⟩
          · intro x
            rcases a8 x with h8 | h8
            · rw [h8, hseen' x]
              by_cases hx : x = bufferAt s head
              · exact Or.inr ⟨by rw [if_pos hx], by rw [hx]; exact hexp⟩
              · exact Or.inl (by rw [if_neg hx])
            · rw [hseen' x] at h8
              by_cases hx : x = bufferAt s head
              · exact Or.inr ⟨h8.1, by rw [hx]; exact hexp⟩
              · rw [if_neg hx] at h8
                exact Or.inr ⟨h8.1, h8.2⟩
          · intro x hx
            have hxne : x ≠ bufferAt s head := by
              intro he
              rw [he] at hx
              omega
            have h9 := a9 x (by rw [hseen' x, if_neg hxne]; exact hx)
            rw [hseen' x, if_neg hxne] at h9
            exact h9
          · intro i hi
            have hine : i ≠ head := by omega
            rw [a10 i hi, hbuf' i, if_neg hine]
          · intro i h1 h2
            rcases Nat.eq_or_lt_of_le h1 with rfl | h1'
            · exact Or.inr hexp
            · have h11 := a11 i h1' h2
              rw [hbuf' i, if_neg (by omega : i ≠ head)] at h11
              rcases h11 with hc | hc
              · exact Or.inl hc
              · rw [hseen' (bufferAt s i)] at hc
                by_cases hy : bufferAt s i = bufferAt s head
                · exact Or.inr (by rw [hy]; exact hexp)
                · rw [if_neg hy] at hc
                  exact Or.inr hc
    · have hred : cleanupLoop now tail (n + 1) s head cleaned =
          (s, head, cleaned) := by
        simp only [cleanupLoop, if_neg hlt]
      rw [hred]
      exact cleanupLoopPost_stop now tail (n + 1) s head cleaned hh

/-! ## Claim C6: bounded cascading cleanup -/

/-- C6.  In one cleanup pass: the head pointer advances by at most
`MAX_CASCADE_CLEANUP`; no seen entry that is still live (`expiry > now`) is
cleared; every slot the head passed was already cleared or expired (cleanup
stops at the first live entry); the head slot is written only when at least
one slot was cleaned or skipped (otherwise the whole state is untouched); and
concretely, inserting one fresh entry on top of `MAX_CASCADE_CLEANUP + 5`
expired entries advances the head by exactly `MAX_CASCADE_CLEANUP`. -/
theorem cleanup_bounded (s : NonceState) (now : Nat)
    (hh : s.expiring_nonce_head ≤ s.expiring_nonce_tail)
    (ht : s.expiring_nonce_tail < U64_LIMIT) :
    ((cleanupExpiredHead s now).expiring_nonce_head ≤
      s.expiring_nonce_head + MAX_CASCADE_CLEANUP) ∧
    (∀ x, now < seenAt s x → seenAt (cleanupExpiredHead s now) x = seenAt s x) ∧
    (∀ i, s.expiring_nonce_head ≤ i →
      i < (cleanupExpiredHead s now).expiring_nonce_head →
      bufferAt s i = 0 ∨ seenAt s (bufferAt s i) ≤ now) ∧
    ((cleanupLoop now s.expiring_nonce_tail MAX_CASCADE_CLEANUP s
        s.expiring_nonce_head 0).2.2 = 0 → cleanupExpiredHead s now = s) ∧
    ((checkAndMarkExpiringNonce nsExpired15 99 1020 1000 30).toOption.map
        NonceState.expiring_nonce_head =
      some (nsExpired15.expiring_nonce_head + MAX_CASCADE_CLEANUP)) := by
  obtain ⟨a1, a2, a3, a4, a5, a6, a7, a8, a9, a10, a11⟩ :=
    cleanupLoop_spec now s.expiring_nonce_tail MAX_CASCADE_CLEANUP s
      s.expiring_nonce_head 0 hh ht
  set r := cleanupLoop now s.expiring_nonce_tail MAX_CASCADE_CLEANUP s
    s.expiring_nonce_head 0 with hr
  have hch : cleanupExpiredHead s now =
      if 0 < r.2.2 then { r.1 with expiring_nonce_head := r.2.1 } else r.1 := rfl
  by_cases hcl : 0 < r.2.2
  · rw [hch, if_pos hcl]
    have hproj : ({ r.1 with expiring_nonce_head := r.2.1 } :
        NonceState).expiring_nonce_head = r.2.1 := rfl
    have hseenproj : ∀ x, seenAt { r.1 with expiring_nonce_head := r.2.1 } x =
        seenAt r.1 x := fun x => rfl
    refine ⟨?_, ?_, ?_, fun h0 => absurd h0 (by omega), by decide⟩
    · rw [hproj]
      omega
    · intro x hx
      rw [hseenproj x]
      exact a9 x hx
    · intro i h1 h2
      rw [hproj] at h2
      exact a11 i h1 h2
  · rw [hch, if_neg hcl]
    have hs : r.1 = s := a7 (by omega)
    rw [hs]
    exact ⟨by omega, fun x _ => rfl, fun i h1 h2 => absurd h2 (by omega),
      fun _ => rfl, by decide⟩

/-- Witness for C6 at the concrete expired-buffer state. -/
theorem cleanup_bounded_witness :
    (cleanupExpiredHead nsExpired15 1000).expiring_nonce_head ≤
      nsExpired15.expiring_nonce_head + MAX_CASCADE_CLEANUP :=
  (cleanup_bounded nsExpired15 1000 (by decide) (by decide)).1

/-! ## MergeByTip lemmas (claim C4) -/

theorem mergeByTip_nil_left (ts : List Tx) : mergeByTip [] ts = ts := by
  rw [mergeByTip]

theorem mergeByTip_cons_nil (v : Tx) (vs : List Tx) :
    mergeByTip (v :: vs) [] = v :: vs := by
  rw [mergeByTip]

theorem mergeByTip_cons_cons (v t : Tx) (vs ts : List Tx) :
    mergeByTip (v :: vs) (t :: ts) =
      if tipOf t ≤ tipOf v then v :: mergeByTip vs (t :: ts)
      else t :: mergeByTip (v :: vs) ts := by
  rw [mergeByTip]

theorem mergeByTip_perm : ∀ vs ts : List Tx, (mergeByTip vs ts).Perm (vs ++ ts) := by
  intro vs
  induction vs with
  | nil => intro ts; simp [mergeByTip_nil_left]
  | cons v vs ih =>
    intro ts
    induction ts with
    | nil => simp [mergeByTip_cons_nil]
    | cons t ts iht =>
      rw [mergeByTip_cons_cons]
      by_cases c : tipOf t ≤ tipOf v
      · rw [if_pos c]
        simpa using (ih (t :: ts)).cons v
      · rw [if_neg c]
        exact ((iht.cons t).trans List.perm_middle.symm)

theorem mergeByTip_sublist_left : ∀ vs ts : List Tx,
    vs.Sublist (mergeByTip vs ts) := by
  intro vs
  induction vs with
  | nil => intro ts; exact List.nil_sublist _
  | cons v vs ih =>
    intro ts
    induction ts with
    | nil => rw [mergeByTip_cons_nil]
    | cons t ts iht =>
      rw [mergeByTip_cons_cons]
      by_cases c : tipOf t ≤ tipOf v
      · rw [if_pos c]
        exact (ih (t :: ts)).cons₂ v
      · rw [if_neg c]
        exact iht.cons t

theorem mergeByTip_sublist_right : ∀ vs ts : List Tx,
    ts.Sublist (mergeByTip vs ts) := by
  intro vs
  induction vs with
  | nil => intro ts; rw [mergeByTip_nil_left]
  | cons v vs ih =>
    intro ts
    induction ts with
    | nil => exact List.nil_sublist _
    | cons t ts iht =>
      rw [mergeByTip_cons_cons]
      by_cases c : tipOf t ≤ tipOf v
      · rw [if_pos c]
        exact (ih (t :: ts)).cons v
      · rw [if_neg c]
        exact iht.cons₂ t

theorem mergeByTip_sorted : ∀ vs ts : List Tx, SortedByTipDesc vs →
    SortedByTipDesc ts → SortedByTipDesc (mergeByTip vs ts) := by
  intro vs
  induction vs with
  | nil => intro ts hv ht; rw [mergeByTip_nil_left]; exact ht
  | cons v vs ih =>
    intro ts
    induction ts with
    | nil => intro hv ht; rw [mergeByTip_cons_nil]; exact hv
    | cons t ts iht =>
      intro hv ht
      have hv' := List.pairwise_cons.mp hv
      have ht' := List.pairwise_cons.mp ht
      rw [mergeByTip_cons_cons]
      by_cases c : tipOf t ≤ tipOf v
      · rw [if_pos c]
        refine List.pairwise_cons.mpr ⟨?_, ih (t :: ts) hv'.2 ht⟩
        intro b hb
        have hmem : b ∈ vs ++ t :: ts := (mergeByTip_perm vs (t :: ts)).mem_iff.mp hb
        rcases List.mem_append.mp hmem with hb1 | hb2
        · exact hv'.1 b hb1
        · rcases List.mem_cons.mp hb2 with rfl | hb3
          · exact c
          · exact le_trans (ht'.1 b hb3) c
      · rw [if_neg c]
        refine List.pairwise_cons.mpr ⟨?_, iht hv ht'.2⟩
        intro b hb
        have hmem : b ∈ (v :: vs) ++ ts :=
          (mergeByTip_perm (v :: vs) ts).mem_iff.mp hb
        have hvt : tipOf v ≤ tipOf t := le_of_not_le c
        rcases List.mem_append.mp hmem with hb1 | hb2
        · rcases List.mem_cons.mp hb1 with rfl | hb3
          · exact hvt
          · exact le_trans (hv'.1 b hb3) hvt
        · exact ht'.1 b hb2

/-- C4.  For tip-descending inputs, `MergeByTip` yields a tip-descending
permutation of the concatenation of the inputs that preserves each input's
relative order, and whenever the two heads have equal tips the vanilla (first)
side is consumed first. -/
theorem mergeByTip_correct (vs ts : List Tx) (hv : SortedByTipDesc vs)
    (ht : SortedByTipDesc ts) :
    (mergeByTip vs ts).Perm (vs ++ ts) ∧
    SortedByTipDesc (mergeByTip vs ts) ∧
    vs.Sublist (mergeByTip vs ts) ∧
    ts.Sublist (mergeByTip vs ts) ∧
    (∀ v vs2 t ts2, tipOf v = tipOf t →
      mergeByTip (v :: vs2) (t :: ts2) = v :: mergeByTip vs2 (t :: ts2)) := by
  refine ⟨mergeByTip_perm vs ts, mergeByTip_sorted vs ts hv ht,
    mergeByTip_sublist_left vs ts, mergeByTip_sublist_right vs ts,
    fun v vs2 t ts2 he => ?_⟩
  rw [mergeByTip_cons_cons, if_pos (le_of_eq he.symm)]

/-- Witness for C4 at concrete sorted streams. -/
theorem mergeByTip_correct_witness :
    SortedByTipDesc (mergeByTip mergeVanillaSample mergeTwodSample) :=
  (mergeByTip_correct mergeVanillaSample mergeTwodSample
    (by unfold SortedByTipDesc; decide) (by unfold SortedByTipDesc; decide)).2.1

/-! ## Further association-list and range lemmas -/

theorem mem_seqRange : ∀ n s x, x ∈ seqRange s n ↔ (s ≤ x ∧ x < s + n) := by
  intro n
  induction n with
  | zero =>
    intro s x
    constructor
    · intro hx
      cases hx
    · intro hx
      exact absurd (by omega : (x : Nat) < x) (Nat.lt_irrefl x)
  | succ m ih =>
    intro s x
    simp only [seqRange, List.mem_cons, ih (s + 1)]
    omega

theorem nodup_seqRange : ∀ n s, (seqRange s n).Nodup := by
  intro n
  induction n with
  | zero => intro s; simp [seqRange]
  | succ m ih =>
    intro s
    simp only [seqRange, List.nodup_cons]
    refine ⟨fun hc => ?_, ih (s + 1)⟩
    have := (mem_seqRange m (s + 1) s).mp hc
    omega

theorem alookup_of_mem_nodup {α β : Type} [DecidableEq α] :
    ∀ (l : List (α × β)) (k : α) (v : β), NodupKeys l → (k, v) ∈ l →
    alookup l k = some v := by
  intro l
  induction l with
  | nil => intro k v _ hm; simp at hm
  | cons hd tl ih =>
    intro k v hnd hm
    obtain ⟨a, b⟩ := hd
    rw [NodupKeys, keysOf_cons, List.nodup_cons] at hnd
    rcases List.mem_cons.mp hm with he | hm2
    · rw [Prod.mk.injEq] at he
      rw [alookup, if_pos he.1, he.2]
    · by_cases hk : k = a
      · subst hk
        exact absurd (List.mem_map_of_mem Prod.fst hm2) hnd.1
      · rw [alookup, if_neg hk]
        exact ih k v hnd.2 hm2

theorem mem_of_alookup {α β : Type} [DecidableEq α] :
    ∀ (l : List (α × β)) (k : α) (v : β), alookup l k = some v → (k, v) ∈ l := by
  intro l
  induction l with
  | nil => intro k v h; simp [alookup] at h
  | cons hd tl ih =>
    intro k v h
    obtain ⟨a, b⟩ := hd
    by_cases hk : k = a
    · rw [alookup, if_pos hk] at h
      cases h
      subst hk
      exact List.mem_cons_self _ _
    · rw [alookup, if_neg hk] at h
      exact List.mem_cons_of_mem _ (ih k v h)

theorem alookup_aerase_sub {α β : Type} [DecidableEq α] (l : List (α × β))
    (k0 k : α) (v : β) (hnd : NodupKeys l)
    (h : alookup (aerase l k0) k = some v) : alookup l k = some v := by
  by_cases hk : k = k0
  · subst hk
    rw [alookup_aerase_self l k hnd] at h
    cases h
  · rw [alookup_aerase_ne l k0 k hk] at h
    exact h

theorem isEmpty_iff_eq_nil {α : Type} (l : List α) : l.isEmpty ↔ l = [] := by
  cases l <;> simp

/-! ## Characterization of the promotion loop -/

theorem promoteLoop_spec : ∀ (fuel : Nat) (q : LaneMap) (next : Nat),
    NodupKeys q → q.length < fuel →
    ∃ m,
      (∀ j, j < m → (alookup q (next + j)).isSome) ∧
      alookup q (next + m) = none ∧
      (∀ seq, alookup (promoteLoop fuel q next).1 seq =
        if next ≤ seq ∧ seq < next + m then none else alookup q seq) ∧
      (∀ seq, alookup (promoteLoop fuel q next).2 seq =
        if next ≤ seq ∧ seq < next + m then alookup q seq else none) ∧
      keysOf (promoteLoop fuel q next).2 = seqRange next m ∧
      NodupKeys (promoteLoop fuel q next).1 := by
  intro fuel
  induction fuel with
  | zero => intro q next _ hlen; exact absurd hlen (Nat.not_lt_zero _)
  | succ f ih =>
    intro q next hnd hlen
    cases hl : alookup q next with
    | none =>
      have hred : promoteLoop (f + 1) q next = (q, []) := by
        simp only [promoteLoop, hl]
      refine ⟨0, fun j hj => absurd hj (by omega), by simpa using hl,
        ?_, ?_, ?_, ?_⟩
      · intro seq
        rw [hred, if_neg (by omega)]
      · intro seq
        rw [hred, if_neg (by omega)]
        rfl
      · rw [hred]
        rfl
      · rw [hred]
        exact hnd
    | some tx =>
      have hiss : (alookup q next).isSome := by rw [hl]; rfl
      have hlen' : (aerase q next).length < f := by
        have := length_aerase q next hiss
        omega
      have hnd' := nodupKeys_aerase q next hnd
      obtain ⟨m, ih1, ih2, ih3, ih4, ih5, ih6⟩ :=
        ih (aerase q next) (next + 1) hnd' hlen'
      have hred : promoteLoop (f + 1) q next =
          ((promoteLoop f (aerase q next) (next + 1)).1,
           (next, tx) :: (promoteLoop f (aerase q next) (next + 1)).2) := by
        simp only [promoteLoop, hl]
      refine ⟨m + 1, ?_, ?_, ?_, ?_, ?_, ?_⟩
      · intro j hj
        cases j with
        | zero => simpa using hiss
        | succ j' =>
          have h1 := ih1 j' (by omega)
          rw [alookup_aerase_ne q next _ (by omega)] at h1
          have he : next + (j' + 1) = next + 1 + j' := by omega
          rw [he]
          exact h1
      · have h2 := ih2
        rw [alookup_aerase_ne q next _ (by omega)] at h2
        have he : next + (m + 1) = next + 1 + m := by omega
        rw [he]
        exact h2
      · intro seq
        rw [hred]
        by_cases hs : seq = next
        · subst hs
          rw [if_pos (by omega : seq ≤ seq ∧ seq < seq + (m + 1)), ih3 seq,
            if_neg (by omega)]
          exact alookup_aerase_self q seq hnd
        · rw [ih3 seq, alookup_aerase_ne q next seq hs]
          by_cases hc : next + 1 ≤ seq ∧ seq < next + 1 + m
          · rw [if_pos hc, if_pos (by omega)]
          · rw [if_neg hc, if_neg (by omega)]
      · intro seq
        rw [hred]
        by_cases hs : seq = next
        · subst hs
          simp only [alookup, if_pos rfl, if_true]
          rw [if_pos (by omega : seq ≤ seq ∧ seq < seq + (m + 1)), hl]
        · simp only [alookup, if_neg hs]
          rw [ih4 seq]
          by_cases hc : next + 1 ≤ seq ∧ seq < next + 1 + m
          · rw [if_pos hc, if_pos (by omega), alookup_aerase_ne q next seq hs]
          · rw [if_neg hc, if_neg (by omega)]
      · rw [hred, keysOf_cons, ih5]
        rfl
      · rw [hred]
        exact ih6

/-! ## Characterization of the promotion fold -/

theorem promosFold_char (k : SenderKey) : ∀ (prs : List (Nat × Tx))
    (acc res : TwoDPool), NodupKeys prs →
    res = prs.foldl (fun a pr => addPendingOrdering a k pr.1 pr.2) acc →
    ((∀ lane seq, alookup (laneOf res.pending lane) seq =
        if lane = k ∧ (alookup prs seq).isSome then alookup prs seq
        else alookup (laneOf acc.pending lane) seq) ∧
     (∀ K v, alookup res.ordering K = some v →
        alookup acc.ordering K = some v ∨
          (K = txOrderingKey v ∧ v ∈ prs.map Prod.snd)) ∧
     res.queued = acc.queued ∧
     res.by_hash = acc.by_hash ∧
     res.nonce_state = acc.nonce_state ∧
     (∀ lane, NodupKeys (laneOf acc.pending lane) →
        NodupKeys (laneOf res.pending lane)) ∧
     (NodupKeys acc.pending → NodupKeys res.pending) ∧
     (NodupKeys acc.ordering → NodupKeys res.ordering)) := by
  intro prs
  induction prs with
  | nil =>
    intro acc res _ hres
    rw [List.foldl_nil] at hres
    subst hres
    refine ⟨fun lane seq => ?_, fun K v hv => Or.inl hv, rfl, rfl, rfl,
      fun lane h => h, fun h => h, fun h => h⟩
    rw [if_neg]
    intro hc
    simp [alookup] at hc
  | cons pr rest ih =>
    intro acc res hnd hres
    obtain ⟨s0, t0⟩ := pr
    rw [NodupKeys, keysOf_cons, List.nodup_cons] at hnd
    rw [List.foldl_cons] at hres
    obtain ⟨A, B, C, D, E, F, G, H⟩ :=
      ih (addPendingOrdering acc k s0 t0) res hnd.2 hres
    have hcons : ∀ seq, alookup ((s0, t0) :: rest) seq =
        if seq = s0 then some t0 else alookup rest seq := fun seq => rfl
    have hnone : alookup rest s0 = none := by
      cases hr0 : alookup rest s0 with
      | none => rfl
      | some w =>
        exact absurd (mem_keysOf_of_alookup rest s0 (by rw [hr0]; rfl)) hnd.1
    have hp1pend : ∀ lane, laneOf (addPendingOrdering acc k s0 t0).pending lane =
        if lane = k then ainsert (laneOf acc.pending k) s0 t0
        else laneOf acc.pending lane := by
      intro lane
      show laneOf (laneInsert acc.pending k s0 t0) lane = _
      unfold laneInsert
      rw [laneOf_ainsert]
    refine ⟨fun lane seq => ?_, fun K v hv => ?_, C, D, E,
      fun lane hl => ?_, fun hl => ?_, fun hl => ?_⟩
    · rw [A lane seq, hcons seq]
      by_cases hlk : lane = k
      · subst hlk
        by_cases hs : seq = s0
        · subst hs
          rw [hnone, hp1pend lane]
          simp [alookup_ainsert]
        · rw [if_neg (fun hc => hs hc)]
          by_cases hr : (alookup rest seq).isSome
          · rw [if_pos ⟨rfl, hr⟩, if_pos ⟨rfl, hr⟩]
          · rw [if_neg (fun hc => hr hc.2), if_neg (fun hc => hr hc.2),
              hp1pend lane, if_pos rfl, alookup_ainsert, if_neg hs]
      · rw [if_neg (fun hc => hlk hc.1), if_neg (fun hc => hlk hc.1),
          hp1pend lane, if_neg hlk]
    · rcases B K v hv with hb | hb
      · have hb' : alookup (ainsert acc.ordering (txOrderingKey t0) t0) K =
            some v := hb
        rw [alookup_ainsert] at hb'
        by_cases hK : K = txOrderingKey t0
        · rw [if_pos hK] at hb'
          cases hb'
          exact Or.inr ⟨hK, List.mem_cons_self _ _⟩
        · rw [if_neg hK] at hb'
          exact Or.inl hb'
      · exact Or.inr ⟨hb.1, List.mem_cons_of_mem _ hb.2⟩
    · refine F lane ?_
      rw [hp1pend lane]
      by_cases hlk : lane = k
      · rw [if_pos hlk]
        exact nodupKeys_ainsert _ _ _ (hlk ▸ hl)
      · rw [if_neg hlk]
        exact hl
    · exact G (nodupKeys_ainsert _ _ _ hl)
    · exact H (nodupKeys_ainsert _ _ _ hl)

/-! ## Characterization of `promote_queued_chain` -/

theorem promoteChain_char (p : TwoDPool) (k : SenderKey) (start : Nat)
    (hq : NodupKeys p.queued) (hlq : NodupKeys (laneOf p.queued k)) :
    ∃ m,
      (∀ j, j < m → (alookup (laneOf p.queued k) (start + j)).isSome) ∧
      alookup (laneOf p.queued k) (start + m) = none ∧
      (∀ lane seq, alookup (laneOf (promoteQueuedChain p k start).queued lane) seq =
        if lane = k ∧ start ≤ seq ∧ seq < start + m then none
        else alookup (laneOf p.queued lane) seq) ∧
      (∀ lane seq, alookup (laneOf (promoteQueuedChain p k start).pending lane) seq =
        if lane = k ∧ start ≤ seq ∧ seq < start + m
        then alookup (laneOf p.queued k) seq
        else alookup (laneOf p.pending lane) seq) ∧
      (∀ K v, alookup (promoteQueuedChain p k start).ordering K = some v →
        alookup p.ordering K = some v ∨
          (K = txOrderingKey v ∧ ∃ seq, start ≤ seq ∧ seq < start + m ∧
            alookup (laneOf p.queued k) seq = some v)) ∧
      (promoteQueuedChain p k start).by_hash = p.by_hash ∧
      (promoteQueuedChain p k start).nonce_state = p.nonce_state ∧
      (∀ lane, NodupKeys (laneOf p.pending lane) →
        NodupKeys (laneOf (promoteQueuedChain p k start).pending lane)) ∧
      (∀ lane, NodupKeys (laneOf p.queued lane) →
        NodupKeys (laneOf (promoteQueuedChain p k start).queued lane)) ∧
      (NodupKeys p.pending → NodupKeys (promoteQueuedChain p k start).pending) ∧
      NodupKeys (promoteQueuedChain p k start).queued ∧
      (NodupKeys p.ordering → NodupKeys (promoteQueuedChain p k start).ordering) := by
  cases hst : alookup p.queued k with
  | none =>
    have hred : promoteQueuedChain p k start = p := by
      simp only [promoteQueuedChain, hst]
    have hlempty : laneOf p.queued k = [] := by
      unfold laneOf
      rw [hst]
      rfl
    rw [hred]
    refine ⟨0, fun j hj => absurd hj (by omega), by rw [hlempty]; rfl,
      fun lane seq => by rw [if_neg (fun hc => by omega)],
      fun lane seq => by rw [if_neg (fun hc => by omega)],
      fun K v hv => Or.inl hv, rfl, rfl, fun lane h => h, fun lane h => h,
      fun h => h, hq, fun h => h⟩
  | some q =>
    have hlq' : laneOf p.queued k = q := by
      unfold laneOf
      rw [hst]
      rfl
    have hndq : NodupKeys q := hlq' ▸ hlq
    obtain ⟨m, L1, L2, L3, L4, L5, L6⟩ :=
      promoteLoop_spec (q.length + 1) q start hndq (by omega)
    have hndpromos : NodupKeys (promoteLoop (q.length + 1) q start).2 := by
      rw [NodupKeys, L5]
      exact nodup_seqRange m start
    have hred : promoteQueuedChain p k start =
        (promoteLoop (q.length + 1) q start).2.foldl
          (fun a pr => addPendingOrdering a k pr.1 pr.2)
          { p with queued := if (promoteLoop (q.length + 1) q start).1.isEmpty
                             then aerase p.queued k
                             else ainsert p.queued k
                               (promoteLoop (q.length + 1) q start).1 } := by
      simp only [promoteQueuedChain, hst]
    obtain ⟨A, B, C, D, E, F, G, H⟩ :=
      promosFold_char k (promoteLoop (q.length + 1) q start).2
        { p with queued := if (promoteLoop (q.length + 1) q start).1.isEmpty
                           then aerase p.queued k
                           else ainsert p.queued k
                             (promoteLoop (q.length + 1) q start).1 }
        (promoteQueuedChain p k start) hndpromos hred
    have A' : ∀ lane seq,
        alookup (laneOf (promoteQueuedChain p k start).pending lane) seq =
          if lane = k ∧ (alookup (promoteLoop (q.length + 1) q start).2 seq).isSome
          then alookup (promoteLoop (q.length + 1) q start).2 seq
          else alookup (laneOf p.pending lane) seq := A
    have B' : ∀ K v, alookup (promoteQueuedChain p k start).ordering K = some v →
        alookup p.ordering K = some v ∨
          (K = txOrderingKey v ∧
            v ∈ (promoteLoop (q.length + 1) q start).2.map Prod.snd) := B
    have C' : (promoteQueuedChain p k start).queued =
        (if (promoteLoop (q.length + 1) q start).1.isEmpty
         then aerase p.queued k
         else ainsert p.queued k (promoteLoop (q.length + 1) q start).1) := C
    have D' : (promoteQueuedChain p k start).by_hash = p.by_hash := D
    have E' : (promoteQueuedChain p k start).nonce_state = p.nonce_state := E
    have F' : ∀ lane, NodupKeys (laneOf p.pending lane) →
        NodupKeys (laneOf (promoteQueuedChain p k start).pending lane) := F
    have G' : NodupKeys p.pending →
        NodupKeys (promoteQueuedChain p k start).pending := G
    have H' : NodupKeys p.ordering →
        NodupKeys (promoteQueuedChain p k start).ordering := H
    have hq1 : ∀ lane seq,
        alookup (laneOf (if (promoteLoop (q.length + 1) q start).1.isEmpty
            then aerase p.queued k
            else ainsert p.queued k (promoteLoop (q.length + 1) q start).1) lane) seq =
        if lane = k ∧ start ≤ seq ∧ seq < start + m then none
        else alookup (laneOf p.queued lane) seq := by
      intro lane seq
      by_cases he : (promoteLoop (q.length + 1) q start).1.isEmpty
      · rw [if_pos he]
        have hnil : (promoteLoop (q.length + 1) q start).1 = [] :=
          (isEmpty_iff_eq_nil _).mp he
        have h3 := L3 seq
        rw [hnil] at h3
        by_cases hlk : lane = k
        · subst hlk
          rw [laneOf_aerase_self p.queued lane hq]
          by_cases hin : start ≤ seq ∧ seq < start + m
          · rw [if_pos ⟨rfl, hin⟩]
            rfl
          · rw [if_neg (fun hc => hin hc.2), hlq']
            rw [if_neg hin] at h3
            exact h3
        · rw [laneOf_aerase_ne p.queued k lane hlk,
            if_neg (fun hc => hlk hc.1)]
      · rw [if_neg he, laneOf_ainsert]
        by_cases hlk : lane = k
        · rw [if_pos hlk]
          have h3 := L3 seq
          by_cases hin : start ≤ seq ∧ seq < start + m
          · rw [if_pos (by exact ⟨hlk, hin⟩), h3, if_pos hin]
          · rw [if_neg (fun hc => hin hc.2), h3, if_neg hin, hlk, hlq']
        · rw [if_neg hlk, if_neg (fun hc => hlk hc.1)]
    have hq1nd : ∀ lane, NodupKeys (laneOf p.queued lane) →
        NodupKeys (laneOf (if (promoteLoop (q.length + 1) q start).1.isEmpty
            then aerase p.queued k
            else ainsert p.queued k (promoteLoop (q.length + 1) q start).1) lane) := by
      intro lane hl
      by_cases he : (promoteLoop (q.length + 1) q start).1.isEmpty
      · rw [if_pos he]
        by_cases hlk : lane = k
        · subst hlk
          rw [laneOf_aerase_self p.queued lane hq]
          exact List.nodup_nil
        · rw [laneOf_aerase_ne p.queued k lane hlk]
          exact hl
      · rw [if_neg he, laneOf_ainsert]
        by_cases hlk : lane = k
        · rw [if_pos hlk]
          exact L6
        · rw [if_neg hlk]
          exact hl
    have hq0nd : NodupKeys (if (promoteLoop (q.length + 1) q start).1.isEmpty
        then aerase p.queued k
        else ainsert p.queued k (promoteLoop (q.length + 1) q start).1) := by
      by_cases he : (promoteLoop (q.length + 1) q start).1.isEmpty
      · rw [if_pos he]
        exact nodupKeys_aerase _ _ hq
      · rw [if_neg he]
        exact nodupKeys_ainsert _ _ _ hq
    have hrange_some : ∀ seq, start ≤ seq → seq < start + m →
        (alookup (promoteLoop (q.length + 1) q start).2 seq).isSome := by
      intro seq h1 h2
      rw [L4 seq, if_pos ⟨h1, h2⟩]
      have h1' := L1 (seq - start) (by omega)
      rw [show start + (seq - start) = seq from by omega] at h1'
      exact h1'
    refine ⟨m, by rw [hlq']; exact L1, by rw [hlq']; exact L2,
      fun lane seq => by rw [C', hq1 lane seq], fun lane seq => ?_,
      fun K v hv => ?_, D', E', F', fun lane h => by rw [C']; exact hq1nd lane h,
      G', by rw [C']; exact hq0nd, H'⟩
    · rw [A' lane seq]
      by_cases hin : start ≤ seq ∧ seq < start + m
      · have hsome := hrange_some seq hin.1 hin.2
        by_cases hlk : lane = k
        · rw [if_pos ⟨hlk, hsome⟩, if_pos ⟨hlk, hin.1, hin.2⟩, L4 seq,
            if_pos hin, hlq']
        · rw [if_neg (fun hc => hlk hc.1), if_neg (fun hc => hlk hc.1)]
      · have hnone2 : alookup (promoteLoop (q.length + 1) q start).2 seq = none := by
          rw [L4 seq, if_neg hin]
        rw [if_neg (fun hc => by rw [hnone2] at hc; exact absurd hc.2 (by simp)),
          if_neg (fun hc => hin ⟨hc.2.1, hc.2.2⟩)]
    · rcases B' K v hv with hb | hb
      · exact Or.inl hb
      · rcases List.mem_map.mp hb.2 with ⟨pr, hpr, hpr2⟩
        obtain ⟨s1, v1⟩ := pr
        cases hpr2
        have hlook := alookup_of_mem_nodup _ _ _ hndpromos hpr
        have h4 := L4 s1
        rw [hlook] at h4
        by_cases hin : start ≤ s1 ∧ s1 < start + m
        · rw [if_pos hin] at h4
          exact Or.inr ⟨hb.1, s1, hin.1, hin.2, by rw [hlq']; exact h4.symm⟩
        · rw [if_neg hin] at h4
          cases h4

/-! ## Lane-insert and `add_transaction` reduction lemmas -/

theorem laneOf_laneInsert (m : List (SenderKey × LaneMap)) (k : SenderKey)
    (seq : Nat) (tx : Tx) (lane : SenderKey) :
    laneOf (laneInsert m k seq tx) lane =
      if lane = k then ainsert (laneOf m k) seq tx else laneOf m lane := by
  unfold laneInsert
  rw [laneOf_ainsert]

theorem length_seqRange : ∀ n s, (seqRange s n).length = n := by
  intro n
  induction n with
  | zero => intro s; rfl
  | succ m ih => intro s; simp [seqRange, ih (s + 1)]

theorem range_length (l : LaneMap) (b kk : Nat) (hnd : NodupKeys l)
    (hiff : ∀ s, (alookup l s).isSome ↔ (b ≤ s ∧ s < b + kk)) :
    l.length = kk := by
  have hmem : ∀ x, x ∈ keysOf l ↔ x ∈ seqRange b kk := by
    intro x
    rw [mem_seqRange kk b x, ← hiff x]
    exact ⟨alookup_isSome_of_mem_keys l x, mem_keysOf_of_alookup l x⟩
  have hperm : (keysOf l).Perm (seqRange b kk) :=
    (List.perm_ext_iff_of_nodup hnd (nodup_seqRange kk b)).mpr hmem
  have hlen := hperm.length_eq
  rw [length_seqRange] at hlen
  unfold keysOf at hlen
  rw [List.length_map] at hlen
  exact hlen

theorem addTransaction_reduce_dup (p : TwoDPool) (tx : Tx) (nk : U192Key)
    (seq : Nat) (hdup : (alookup p.by_hash tx.hash).isSome) :
    addTransaction p tx nk seq = (Except.error PoolErr.alreadyImported, p) := by
  simp only [addTransaction, hdup, if_true]

theorem addTransaction_reduce_stale (p : TwoDPool) (tx : Tx) (nk : U192Key)
    (seq : Nat) (hdup : ¬ (alookup p.by_hash tx.hash).isSome = true)
    (hlt : seq < getOnChainSequence p (tx.sender, nk)) :
    addTransaction p tx nk seq = (Except.error PoolErr.sequenceOutdated, p) := by
  simp only [addTransaction]
  rw [if_neg hdup, if_pos hlt]

theorem addTransaction_reduce_queued (p : TwoDPool) (tx : Tx) (nk : U192Key)
    (seq : Nat) (hdup : ¬ (alookup p.by_hash tx.hash).isSome = true)
    (hge : ¬ seq < getOnChainSequence p (tx.sender, nk))
    (hne : ¬ seq = getOnChainSequence p (tx.sender, nk)) :
    addTransaction p tx nk seq =
      (Except.ok tx.hash,
       addToQueued { p with by_hash := ainsert p.by_hash tx.hash tx }
         (tx.sender, nk) seq tx) := by
  simp only [addTransaction]
  rw [if_neg hdup, if_neg hge, if_neg hne]

theorem addTransaction_reduce_pending (p : TwoDPool) (tx : Tx) (nk : U192Key)
    (seq : Nat) (hdup : ¬ (alookup p.by_hash tx.hash).isSome = true)
    (heq : seq = getOnChainSequence p (tx.sender, nk)) :
    addTransaction p tx nk seq =
      (Except.ok tx.hash,
       promoteQueuedChain
         (addPendingOrdering { p with by_hash := ainsert p.by_hash tx.hash tx }
           (tx.sender, nk) seq tx)
         (tx.sender, nk) (seq + 1)) := by
  simp only [addTransaction]
  rw [if_neg hdup, if_neg (by omega), if_pos heq]

/-! ## Preservation of key-duplicate freedom by `add_transaction` -/

theorem nodupInv_addToQueued (p : TwoDPool) (k : SenderKey) (seq : Nat)
    (tx : Tx) (h : NodupInv p) : NodupInv (addToQueued p k seq tx) := by
  obtain ⟨h1, h2, h3, h4, h5, h6, h7⟩ := h
  refine ⟨h1, ?_, h3, h4, h5, h6, fun lane => ?_⟩
  · exact nodupKeys_ainsert _ _ _ h2
  · show NodupKeys (laneOf (laneInsert p.queued k seq tx) lane)
    rw [laneOf_laneInsert]
    by_cases hlk : lane = k
    · rw [if_pos hlk]
      exact nodupKeys_ainsert _ _ _ (h7 k)
    · rw [if_neg hlk]
      exact h7 lane

theorem nodupInv_addPendingOrdering (p : TwoDPool) (k : SenderKey) (seq : Nat)
    (tx : Tx) (h : NodupInv p) : NodupInv (addPendingOrdering p k seq tx) := by
  obtain ⟨h1, h2, h3, h4, h5, h6, h7⟩ := h
  refine ⟨?_, h2, ?_, h4, h5, fun lane => ?_, h7⟩
  · exact nodupKeys_ainsert _ _ _ h1
  · exact nodupKeys_ainsert _ _ _ h3
  · show NodupKeys (laneOf (laneInsert p.pending k seq tx) lane)
    rw [laneOf_laneInsert]
    by_cases hlk : lane = k
    · rw [if_pos hlk]
      exact nodupKeys_ainsert _ _ _ (h6 k)
    · rw [if_neg hlk]
      exact h6 lane

theorem nodupInv_byHashInsert (p : TwoDPool) (h0 : Nat) (tx : Tx)
    (h : NodupInv p) :
    NodupInv { p with by_hash := ainsert p.by_hash h0 tx } := by
  obtain ⟨h1, h2, h3, h4, h5, h6, h7⟩ := h
  exact ⟨h1, h2, h3, h4, nodupKeys_ainsert _ _ _ h5, h6, h7⟩

theorem nodupInv_promoteChain (p : TwoDPool) (k : SenderKey) (start : Nat)
    (h : NodupInv p) : NodupInv (promoteQueuedChain p k start) := by
  obtain ⟨m, _, _, _, _, _, hbh, hns, Fp, Fq, Gp, Hq, Ho⟩ :=
    promoteChain_char p k start h.2.1 (h.2.2.2.2.2.2 k)
  obtain ⟨h1, h2, h3, h4, h5, h6, h7⟩ := h
  refine ⟨Gp h1, Hq, Ho h3, ?_, ?_, fun lane => Fp lane (h6 lane),
    fun lane => Fq lane (h7 lane)⟩
  · rw [show (promoteQueuedChain p k start).nonce_state = p.nonce_state from hns]
    exact h4
  · rw [show (promoteQueuedChain p k start).by_hash = p.by_hash from hbh]
    exact h5

theorem nodupInv_addTransaction (p : TwoDPool) (tx : Tx) (nk : U192Key)
    (seq : Nat) (h : NodupInv p) : NodupInv (addTransaction p tx nk seq).2 := by
  by_cases hdup : (alookup p.by_hash tx.hash).isSome
  · rw [addTransaction_reduce_dup p tx nk seq hdup]
    exact h
  · by_cases hlt : seq < getOnChainSequence p (tx.sender, nk)
    · rw [addTransaction_reduce_stale p tx nk seq hdup hlt]
      exact h
    · by_cases heq : seq = getOnChainSequence p (tx.sender, nk)
      · rw [addTransaction_reduce_pending p tx nk seq hdup heq]
        exact nodupInv_promoteChain _ _ _
          (nodupInv_addPendingOrdering _ _ _ _ (nodupInv_byHashInsert p _ tx h))
      · rw [addTransaction_reduce_queued p tx nk seq hdup hlt heq]
        exact nodupInv_addToQueued _ _ _ _ (nodupInv_byHashInsert p _ tx h)

/-! ## Preservation of the lane-range invariant by `add_transaction` -/

theorem laneRangeInv_addTransaction (p : TwoDPool) (tx : Tx) (nk : U192Key)
    (seq : Nat) (hnd : NodupInv p) (hall : ∀ lane, LaneRangeInv p lane) :
    ∀ lane, LaneRangeInv (addTransaction p tx nk seq).2 lane := by
  intro lane
  by_cases hdup : (alookup p.by_hash tx.hash).isSome
  · rw [addTransaction_reduce_dup p tx nk seq hdup]
    exact hall lane
  · by_cases hlt : seq < getOnChainSequence p (tx.sender, nk)
    · rw [addTransaction_reduce_stale p tx nk seq hdup hlt]
      exact hall lane
    · obtain ⟨s1, s2, ⟨kl, sl3⟩, sl4⟩ := hall lane
      by_cases heq : seq = getOnChainSequence p (tx.sender, nk)
      · rw [addTransaction_reduce_pending p tx nk seq hdup heq]
        have hnd2 : NodupInv (addPendingOrdering
            { p with by_hash := ainsert p.by_hash tx.hash tx }
            (tx.sender, nk) seq tx) :=
          nodupInv_addPendingOrdering _ _ _ _ (nodupInv_byHashInsert p _ tx hnd)
        obtain ⟨r1, r2, ⟨k0, r3⟩, r4⟩ := hall (tx.sender, nk)
        have hp2pend : ∀ lane2 s, alookup (laneOf (addPendingOrdering
            { p with by_hash := ainsert p.by_hash tx.hash tx }
            (tx.sender, nk) seq tx).pending lane2) s =
            if lane2 = (tx.sender, nk)
            then alookup (ainsert (laneOf p.pending (tx.sender, nk)) seq tx) s
            else alookup (laneOf p.pending lane2) s := by
          intro lane2 s
          show alookup (laneOf (laneInsert p.pending (tx.sender, nk) seq tx) lane2) s = _
          rw [laneOf_laneInsert]
          by_cases hl2 : lane2 = (tx.sender, nk)
          · rw [if_pos hl2, if_pos hl2]
          · rw [if_neg hl2, if_neg hl2]
        have hrange2 : ∀ s, (alookup (laneOf (addPendingOrdering
            { p with by_hash := ainsert p.by_hash tx.hash tx }
            (tx.sender, nk) seq tx).pending (tx.sender, nk)) s).isSome ↔
            (getOnChainSequence p (tx.sender, nk) ≤ s ∧
             s < getOnChainSequence p (tx.sender, nk) + max k0 1) := by
          intro s
          rw [hp2pend _ s, if_pos rfl, alookup_ainsert]
          by_cases hs : s = seq
          · rw [if_pos hs]
            constructor
            · intro _
              omega
            · intro _
              rfl
          · rw [if_neg hs]
            rw [r3 s]
            omega
        obtain ⟨m, L1, L2, Q3, P4, _, _, N7, F8, F9, _, _, _⟩ :=
          promoteChain_char (addPendingOrdering
            { p with by_hash := ainsert p.by_hash tx.hash tx }
            (tx.sender, nk) seq tx) (tx.sender, nk) (seq + 1)
            hnd2.2.1 (hnd2.2.2.2.2.2.2 (tx.sender, nk))
        have hbase : ∀ lane2, getOnChainSequence (promoteQueuedChain
            (addPendingOrdering { p with by_hash := ainsert p.by_hash tx.hash tx }
              (tx.sender, nk) seq tx) (tx.sender, nk) (seq + 1)) lane2 =
            getOnChainSequence p lane2 := by
          intro lane2
          unfold getOnChainSequence
          rw [N7]
          rfl
        have hq2lane : ∀ lane2, laneOf (addPendingOrdering
            { p with by_hash := ainsert p.by_hash tx.hash tx }
            (tx.sender, nk) seq tx).queued lane2 = laneOf p.queued lane2 :=
          fun lane2 => rfl
        refine ⟨F8 lane (hnd2.2.2.2.2.2.1 lane), F9 lane (hnd2.2.2.2.2.2.2 lane),
          ?_, ?_⟩
        · by_cases hlk : lane = (tx.sender, nk)
          · refine ⟨max (max k0 1) (m + 1), fun s => ?_⟩
            rw [hbase lane, P4 lane s]
            by_cases hwin : seq + 1 ≤ s ∧ s < seq + 1 + m
            · rw [if_pos ⟨hlk, hwin.1, hwin.2⟩]
              have hsome := L1 (s - (seq + 1)) (by omega)
              rw [show seq + 1 + (s - (seq + 1)) = s from by omega] at hsome
              constructor
              · intro _
                rw [hlk]
                omega
              · intro _
                exact hsome
            · rw [if_neg (fun hc => hwin ⟨hc.2.1, hc.2.2⟩), hlk, hrange2 s]
              omega
          · refine ⟨kl, fun s => ?_⟩
            rw [hbase lane, P4 lane s, if_neg (fun hc => hlk hc.1),
              hp2pend lane s, if_neg hlk]
            exact sl3 s
        · intro s hs
          rw [hbase lane]
          rw [Q3 lane s] at hs
          by_cases hc : lane = (tx.sender, nk) ∧ seq + 1 ≤ s ∧ s < seq + 1 + m
          · rw [if_pos hc] at hs
            cases hs
          · rw [if_neg hc] at hs
            rw [show laneOf (addPendingOrdering
                { p with by_hash := ainsert p.by_hash tx.hash tx }
                (tx.sender, nk) seq tx).queued lane = laneOf p.queued lane
                from rfl] at hs
            exact sl4 s hs
      · rw [addTransaction_reduce_queued p tx nk seq hdup hlt heq]
        have hqlane : ∀ lane2 s, alookup (laneOf (addToQueued
            { p with by_hash := ainsert p.by_hash tx.hash tx }
            (tx.sender, nk) seq tx).queued lane2) s =
            if lane2 = (tx.sender, nk)
            then alookup (ainsert (laneOf p.queued (tx.sender, nk)) seq tx) s
            else alookup (laneOf p.queued lane2) s := by
          intro lane2 s
          show alookup (laneOf (laneInsert p.queued (tx.sender, nk) seq tx) lane2) s = _
          rw [laneOf_laneInsert]
          by_cases hl2 : lane2 = (tx.sender, nk)
          · rw [if_pos hl2, if_pos hl2]
          · rw [if_neg hl2, if_neg hl2]
        refine ⟨s1, ?_, ⟨kl, sl3⟩, ?_⟩
        · show NodupKeys (laneOf (laneInsert p.queued (tx.sender, nk) seq tx) lane)
          rw [laneOf_laneInsert]
          by_cases hlk : lane = (tx.sender, nk)
          · rw [if_pos hlk]
            exact nodupKeys_ainsert _ _ _ (hnd.2.2.2.2.2.2 (tx.sender, nk))
          · rw [if_neg hlk]
            exact s2
        · intro s hs
          rw [hqlane lane s] at hs
          by_cases hlk : lane = (tx.sender, nk)
          · rw [if_pos hlk, alookup_ainsert] at hs
            by_cases hseq : s = seq
            · show getOnChainSequence p lane < s
              rw [hlk]
              omega
            · rw [if_neg hseq] at hs
              have := sl4 s (by rw [hlk]; exact hs)
              rw [hlk] at this ⊢
              exact this
          · rw [if_neg hlk] at hs
            exact sl4 s hs

/-! ## Claim C1: the contiguity invariant -/

theorem nodupInv_empty : NodupInv emptyPool :=
  ⟨List.nodup_nil, List.nodup_nil, List.nodup_nil, List.nodup_nil,
   List.nodup_nil, fun _ => List.nodup_nil, fun _ => List.nodup_nil⟩

theorem laneRangeInv_empty : ∀ lane, LaneRangeInv emptyPool lane := by
  intro lane
  refine ⟨List.nodup_nil, List.nodup_nil, ⟨0, fun s => ?_⟩, fun s hs => ?_⟩
  · constructor
    · intro h
      simp [emptyPool, laneOf, alookup] at h
    · intro h
      omega
  · simp [emptyPool, laneOf, alookup] at hs

theorem runOps_addOnly_inv : ∀ (ops : List PoolOp) (p : TwoDPool),
    NodupInv p → (∀ lane, LaneRangeInv p lane) →
    (∀ op ∈ ops, ∃ tx nk s, op = PoolOp.add tx nk s) →
    NodupInv (runOps p ops) ∧ ∀ lane, LaneRangeInv (runOps p ops) lane := by
  intro ops
  induction ops with
  | nil => exact fun p h1 h2 _ => ⟨h1, h2⟩
  | cons op rest ih =>
    intro p h1 h2 hadds
    obtain ⟨tx, nk, s, rfl⟩ := hadds op (List.mem_cons_self op rest)
    exact ih (addTransaction p tx nk s).2
      (nodupInv_addTransaction p tx nk s h1)
      (laneRangeInv_addTransaction p tx nk s h1 h2)
      (fun op2 hop2 => hadds op2 (List.mem_cons_of_mem _ hop2))

/-- C1 counterexample.  The invariant as claimed fails in three reachable
states: `poolTopGap` (a later admission at sequence `baseline + k` sits in
`queued`, not strictly above `baseline + k`); `poolStaleQueued` (after a
canonical state change raised the baseline past a gap, a queued entry sits
below the baseline); `poolSetSeqMid` (after a mid-stream
`set_on_chain_sequence`, pending is not the contiguous range at the
baseline). -/
theorem lane_invariant_counterexample :
    ¬ ClaimedLaneInvariant poolTopGap laneA ∧
    ¬ ClaimedLaneInvariant poolStaleQueued laneA ∧
    ¬ ClaimedLaneInvariant poolSetSeqMid laneA := by
  refine ⟨fun h => ?_, fun h => ?_, fun h => ?_⟩
  · exact absurd (h.2 1 (by decide)) (by decide)
  · exact absurd (h.2 3 (by decide)) (by decide)
  · exact absurd ((h.1 0).mp (by decide)) (by decide)

/-- C1 amended.  In every state reachable from the empty pool by
`add_transaction` calls alone, each lane's pending sequences are exactly the
contiguous range `[baseline, baseline + k)` with `k = |pending[lane]|`, and
every queued sequence is strictly greater than the baseline itself.  The
claimed strict bound `queued > baseline + k` fails, and the invariant is not
maintained across `on_canonical_state_change` or mid-stream
`set_on_chain_sequence` calls (see the counterexample). -/
theorem addOnly_lane_invariant (ops : List PoolOp)
    (hadds : ∀ op ∈ ops, ∃ tx nk s, op = PoolOp.add tx nk s)
    (lane : SenderKey) : AddOnlyLaneInvariant (runOps emptyPool ops) lane := by
  obtain ⟨hnd, hinv⟩ :=
    runOps_addOnly_inv ops emptyPool nodupInv_empty laneRangeInv_empty hadds
  obtain ⟨n1, n2, ⟨kk, hiff⟩, hq⟩ := hinv lane
  have hlen := range_length _ _ kk n1 hiff
  refine ⟨fun s => ?_, hq⟩
  rw [hlen]
  exact hiff s

/-- Witness for C1 amended on a concrete one-add history. -/
theorem addOnly_lane_invariant_witness :
    AddOnlyLaneInvariant (runOps emptyPool [PoolOp.add txSeq0 key1 0]) laneA :=
  addOnly_lane_invariant [PoolOp.add txSeq0 key1 0]
    (fun op hop => by
      rcases List.mem_singleton.mp hop with rfl
      exact ⟨txSeq0, key1, 0, rfl⟩) laneA

/-! ## Characterization of `remove_confirmed_transactions` -/

theorem removeOne_reduce_none (p : TwoDPool) (k : SenderKey) (s : Nat)
    (hl : alookup (laneOf p.pending k) s = none) : removeOne p k s = p := by
  simp only [removeOne, hl]

theorem removeOne_reduce_some (p : TwoDPool) (k : SenderKey) (s : Nat) (tx : Tx)
    (hl : alookup (laneOf p.pending k) s = some tx) :
    removeOne p k s =
      { p with
        pending := ainsert p.pending k (aerase (laneOf p.pending k) s),
        ordering := aerase p.ordering (txOrderingKey tx),
        by_hash := aerase p.by_hash tx.hash } := by
  simp only [removeOne, hl]

theorem alookup_none_of_sub {a b : Type} [DecidableEq a] (f g : List (a × b))
    (key : a) (hsub : ∀ h w, alookup f h = some w → alookup g h = some w)
    (hg : alookup g key = none) : alookup f key = none := by
  cases hf : alookup f key with
  | none => rfl
  | some w =>
    rw [hsub key w hf] at hg
    cases hg

theorem removeFold_char (k : SenderKey) : ∀ (rs : List Nat) (acc : TwoDPool),
    rs.Nodup → NodupKeys acc.pending → NodupKeys (laneOf acc.pending k) →
    NodupKeys acc.by_hash → NodupKeys acc.ordering →
    (∀ lane seq,
      alookup (laneOf (rs.foldl (fun a s => removeOne a k s) acc).pending lane) seq =
        if lane = k ∧ seq ∈ rs then none
        else alookup (laneOf acc.pending lane) seq) ∧
    (rs.foldl (fun a s => removeOne a k s) acc).queued = acc.queued ∧
    (rs.foldl (fun a s => removeOne a k s) acc).nonce_state = acc.nonce_state ∧
    (∀ h w,
      alookup (rs.foldl (fun a s => removeOne a k s) acc).by_hash h = some w →
      alookup acc.by_hash h = some w) ∧
    (∀ s tx, s ∈ rs → alookup (laneOf acc.pending k) s = some tx →
      alookup (rs.foldl (fun a s => removeOne a k s) acc).by_hash tx.hash = none) ∧
    (∀ h, (∀ s tx, s ∈ rs → alookup (laneOf acc.pending k) s = some tx →
        tx.hash ≠ h) →
      alookup (rs.foldl (fun a s => removeOne a k s) acc).by_hash h =
        alookup acc.by_hash h) ∧
    (∀ K v,
      alookup (rs.foldl (fun a s => removeOne a k s) acc).ordering K = some v →
      alookup acc.ordering K = some v) ∧
    (∀ s tx, s ∈ rs → alookup (laneOf acc.pending k) s = some tx →
      alookup (rs.foldl (fun a s => removeOne a k s) acc).ordering
        (txOrderingKey tx) = none) ∧
    NodupKeys (rs.foldl (fun a s => removeOne a k s) acc).pending ∧
    (∀ lane, NodupKeys (laneOf acc.pending lane) →
      NodupKeys (laneOf (rs.foldl (fun a s => removeOne a k s) acc).pending lane)) ∧
    NodupKeys (rs.foldl (fun a s => removeOne a k s) acc).by_hash ∧
    NodupKeys (rs.foldl (fun a s => removeOne a k s) acc).ordering := by
  intro rs
  induction rs with
  | nil =>
    intro acc _ hp hlp hbh hord
    exact ⟨fun lane seq => by
        rw [if_neg (fun hc => List.not_mem_nil seq hc.2), List.foldl_nil],
      rfl, rfl, fun h w hw => hw, fun s tx hs => absurd hs (List.not_mem_nil s),
      fun h _ => rfl, fun K v hv => hv,
      fun s tx hs => absurd hs (List.not_mem_nil s), hp, fun lane h => h,
      hbh, hord⟩
  | cons s0 rest ih =>
    intro acc hnd hp hlp hbh hord
    rw [List.nodup_cons] at hnd
    rw [List.foldl_cons]
    cases hl : alookup (laneOf acc.pending k) s0 with
    | none =>
      rw [removeOne_reduce_none acc k s0 hl]
      obtain ⟨A, B, C, D4, D5, D6, D7, D8, N9, N10, N11, N12⟩ :=
        ih acc hnd.2 hp hlp hbh hord
      refine ⟨fun lane seq => ?_, B, C, D4, fun s tx hs htx => ?_,
        fun h hh => D6 h (fun s tx hs => hh s tx (List.mem_cons_of_mem _ hs)),
        D7, fun s tx hs htx => ?_, N9, N10, N11, N12⟩
      · rw [A lane seq]
        by_cases hlk : lane = k
        · by_cases hsm : seq ∈ rest
          · rw [if_pos ⟨hlk, hsm⟩, if_pos ⟨hlk, List.mem_cons_of_mem _ hsm⟩]
          · rw [if_neg (fun hc => hsm hc.2)]
            by_cases hs0 : seq = s0
            · rw [if_pos ⟨hlk, (by rw [hs0]; exact List.mem_cons_self s0 rest)⟩, hlk, hs0, hl]
            · rw [if_neg (fun hc => by
                rcases List.mem_cons.mp hc.2 with h1 | h1
                · exact hs0 h1
                · exact hsm h1)]
        · rw [if_neg (fun hc => hlk hc.1), if_neg (fun hc => hlk hc.1)]
      · rcases List.mem_cons.mp hs with rfl | hs2
        · rw [hl] at htx
          cases htx
        · exact D5 s tx hs2 htx
      · rcases List.mem_cons.mp hs with rfl | hs2
        · rw [hl] at htx
          cases htx
        · exact D8 s tx hs2 htx
    | some tx0 =>
      rw [removeOne_reduce_some acc k s0 tx0 hl]
      have hlane1 : ∀ lane2, laneOf (ainsert acc.pending k
          (aerase (laneOf acc.pending k) s0)) lane2 =
          if lane2 = k then aerase (laneOf acc.pending k) s0
          else laneOf acc.pending lane2 := by
        intro lane2
        rw [laneOf_ainsert]
      obtain ⟨A, B, C, D4, D5, D6, D7, D8, N9, N10, N11, N12⟩ :=
        ih { acc with
              pending := ainsert acc.pending k (aerase (laneOf acc.pending k) s0),
              ordering := aerase acc.ordering (txOrderingKey tx0),
              by_hash := aerase acc.by_hash tx0.hash }
          hnd.2 (nodupKeys_ainsert _ _ _ hp)
          (by rw [show laneOf (ainsert acc.pending k
              (aerase (laneOf acc.pending k) s0)) k =
              aerase (laneOf acc.pending k) s0 from by
                rw [hlane1 k, if_pos rfl]]
              exact nodupKeys_aerase _ _ hlp)
          (nodupKeys_aerase _ _ hbh) (nodupKeys_aerase _ _ hord)
      have hlane1' : ∀ lane2 seq2, alookup (laneOf { acc with
          pending := ainsert acc.pending k (aerase (laneOf acc.pending k) s0),
          ordering := aerase acc.ordering (txOrderingKey tx0),
          by_hash := aerase acc.by_hash tx0.hash }.pending lane2) seq2 =
          if lane2 = k then alookup (aerase (laneOf acc.pending k) s0) seq2
          else alookup (laneOf acc.pending lane2) seq2 := by
        intro lane2 seq2
        show alookup (laneOf (ainsert acc.pending k
          (aerase (laneOf acc.pending k) s0)) lane2) seq2 = _
        rw [hlane1 lane2]
        by_cases hl2 : lane2 = k
        · rw [if_pos hl2, if_pos hl2]
        · rw [if_neg hl2, if_neg hl2]
      refine ⟨fun lane seq => ?_, B, C, ?_, ?_, ?_, ?_, ?_, N9,
        fun lane h => N10 lane ?_, N11, N12⟩
      · rw [A lane seq, hlane1' lane seq]
        by_cases hlk : lane = k
        · by_cases hsm : seq ∈ rest
          · rw [if_pos ⟨hlk, hsm⟩, if_pos ⟨hlk, List.mem_cons_of_mem _ hsm⟩]
          · rw [if_neg (fun hc => hsm hc.2), if_pos hlk]
            by_cases hs0 : seq = s0
            · rw [if_pos ⟨hlk, (by rw [hs0]; exact List.mem_cons_self s0 rest)⟩, hs0,
                alookup_aerase_self _ _ hlp]
            · rw [if_neg (fun hc => by
                rcases List.mem_cons.mp hc.2 with h1 | h1
                · exact hs0 h1
                · exact hsm h1),
                alookup_aerase_ne _ _ _ hs0, hlk]
        · rw [if_neg (fun hc => hlk hc.1), if_neg hlk,
            if_neg (fun hc => hlk hc.1)]
      · intro h w hw
        exact alookup_aerase_sub _ _ _ _ hbh (D4 h w hw)
      · intro s tx hs htx
        rcases List.mem_cons.mp hs with rfl | hs2
        · rw [hl] at htx
          cases htx
          exact alookup_none_of_sub _ _ _ D4
            (alookup_aerase_self acc.by_hash tx0.hash hbh)
        · have htx1 : alookup (laneOf { acc with
              pending := ainsert acc.pending k (aerase (laneOf acc.pending k) s0),
              ordering := aerase acc.ordering (txOrderingKey tx0),
              by_hash := aerase acc.by_hash tx0.hash }.pending k) s = some tx := by
            rw [hlane1' k s, if_pos rfl,
              alookup_aerase_ne _ _ _ (fun he => hnd.1 (by rw [← he]; exact hs2))]
            exact htx
          exact D5 s tx hs2 htx1
      · intro h hh
        have hne : tx0.hash ≠ h := hh s0 tx0 (List.mem_cons_self s0 rest) hl
        have hd6 := D6 h (fun s tx hs htx => by
          apply hh s tx (List.mem_cons_of_mem _ hs)
          rw [hlane1' k s, if_pos rfl] at htx
          exact alookup_aerase_sub _ _ _ _ hlp htx)
        rw [hd6]
        show alookup (aerase acc.by_hash tx0.hash) h = alookup acc.by_hash h
        exact alookup_aerase_ne _ _ _ (fun he => hne he.symm)
      · intro K v hv
        exact alookup_aerase_sub _ _ _ _ hord (D7 K v hv)
      · intro s tx hs htx
        rcases List.mem_cons.mp hs with rfl | hs2
        · rw [hl] at htx
          cases htx
          exact alookup_none_of_sub _ _ _ D7
            (alookup_aerase_self acc.ordering (txOrderingKey tx0) hord)
        · have htx1 : alookup (laneOf { acc with
              pending := ainsert acc.pending k (aerase (laneOf acc.pending k) s0),
              ordering := aerase acc.ordering (txOrderingKey tx0),
              by_hash := aerase acc.by_hash tx0.hash }.pending k) s = some tx := by
            rw [hlane1' k s, if_pos rfl,
              alookup_aerase_ne _ _ _ (fun he => hnd.1 (by rw [← he]; exact hs2))]
            exact htx
          exact D8 s tx hs2 htx1
      · rw [hlane1 lane]
        by_cases hlk : lane = k
        · rw [if_pos hlk]
          exact nodupKeys_aerase _ _ (hlk ▸ h)
        · rw [if_neg hlk]
          exact h

theorem removeConfirmed_char (p : TwoDPool) (k : SenderKey) (n : Nat)
    (hp : NodupKeys p.pending) (hlp : NodupKeys (laneOf p.pending k))
    (hbh : NodupKeys p.by_hash) (hord : NodupKeys p.ordering) :
    (∀ lane seq,
      alookup (laneOf (removeConfirmedTransactions p k n).pending lane) seq =
        if lane = k ∧ seq < n then none
        else alookup (laneOf p.pending lane) seq) ∧
    (removeConfirmedTransactions p k n).queued = p.queued ∧
    (removeConfirmedTransactions p k n).nonce_state = p.nonce_state ∧
    (∀ h w, alookup (removeConfirmedTransactions p k n).by_hash h = some w →
      alookup p.by_hash h = some w) ∧
    (∀ s tx, s < n → alookup (laneOf p.pending k) s = some tx →
      alookup (removeConfirmedTransactions p k n).by_hash tx.hash = none) ∧
    (∀ h, (∀ s tx, s < n → alookup (laneOf p.pending k) s = some tx →
        tx.hash ≠ h) →
      alookup (removeConfirmedTransactions p k n).by_hash h =
        alookup p.by_hash h) ∧
    (∀ K v, alookup (removeConfirmedTransactions p k n).ordering K = some v →
      alookup p.ordering K = some v) ∧
    (∀ s tx, s < n → alookup (laneOf p.pending k) s = some tx →
      alookup (removeConfirmedTransactions p k n).ordering
        (txOrderingKey tx) = none) ∧
    NodupKeys (removeConfirmedTransactions p k n).pending ∧
    (∀ lane, NodupKeys (laneOf p.pending lane) →
      NodupKeys (laneOf (removeConfirmedTransactions p k n).pending lane)) ∧
    NodupKeys (removeConfirmedTransactions p k n).by_hash ∧
    NodupKeys (removeConfirmedTransactions p k n).ordering := by
  cases hpl : alookup p.pending k with
  | none =>
    have hred : removeConfirmedTransactions p k n = p := by
      simp only [removeConfirmedTransactions, hpl]
    have hlempty : laneOf p.pending k = [] := by
      unfold laneOf
      rw [hpl]
      rfl
    rw [hred]
    refine ⟨fun lane seq => ?_, rfl, rfl, fun h w hw => hw,
      fun s tx _ htx => ?_, fun h _ => rfl, fun K v hv => hv,
      fun s tx _ htx => ?_, hp, fun lane h => h, hbh, hord⟩
    · by_cases hc : lane = k ∧ seq < n
      · rw [if_pos hc, hc.1, hlempty]
        rfl
      · rw [if_neg hc]
    · rw [hlempty] at htx
      cases htx
    · rw [hlempty] at htx
      cases htx
  | some laneTxs =>
    have hlaneq : laneOf p.pending k = laneTxs := by
      unfold laneOf
      rw [hpl]
      rfl
    have hlpT : NodupKeys laneTxs := hlaneq ▸ hlp
    have hmemTR : ∀ s, s ∈ (laneTxs.filter (fun e => e.1 < n)).map Prod.fst ↔
        ((alookup laneTxs s).isSome ∧ s < n) := by
      intro s
      constructor
      · intro hmem
        rcases List.mem_map.mp hmem with ⟨pair, hmemf, hfst⟩
        rcases List.mem_filter.mp hmemf with ⟨hmem2, hdec⟩
        have hlt : pair.1 < n := by simpa using hdec
        have hlook : alookup laneTxs pair.1 = some pair.2 :=
          alookup_of_mem_nodup _ _ _ hlpT (by
            rw [show (pair.1, pair.2) = pair from rfl]
            exact hmem2)
        rw [← hfst]
        exact ⟨by rw [hlook]; rfl, hlt⟩
      · intro hx
        rcases Option.isSome_iff_exists.mp hx.1 with ⟨w, hw⟩
        refine List.mem_map.mpr ⟨(s, w), List.mem_filter.mpr
          ⟨mem_of_alookup _ _ _ hw, by simpa using hx.2⟩, rfl⟩
    have hndTR : ((laneTxs.filter (fun e => e.1 < n)).map Prod.fst).Nodup := by
      have hsub : ((laneTxs.filter (fun e => e.1 < n)).map Prod.fst).Sublist
          (keysOf laneTxs) := (List.filter_sublist laneTxs).map Prod.fst
      exact hsub.nodup hlpT
    obtain ⟨A, B, C, D4, D5, D6, D7, D8, N9, N10, N11, N12⟩ :=
      removeFold_char k ((laneTxs.filter (fun e => e.1 < n)).map Prod.fst) p
        hndTR hp hlp hbh hord
    have hA' : ∀ lane seq, alookup (laneOf
        (((laneTxs.filter (fun e => e.1 < n)).map Prod.fst).foldl
          (fun a s => removeOne a k s) p).pending lane) seq =
        if lane = k ∧ seq < n then none
        else alookup (laneOf p.pending lane) seq := by
      intro lane seq
      rw [A lane seq]
      by_cases hc : lane = k ∧ seq < n
      · rw [if_pos hc]
        by_cases hsome : (alookup laneTxs seq).isSome
        · rw [if_pos ⟨hc.1, (hmemTR seq).mpr ⟨hsome, hc.2⟩⟩]
        · rw [if_neg (fun hc2 => hsome ((hmemTR seq).mp hc2.2).1), hc.1, hlaneq]
          exact Option.not_isSome_iff_eq_none.mp hsome
      · rw [if_neg hc, if_neg (fun hc2 => hc ⟨hc2.1, ((hmemTR seq).mp hc2.2).2⟩)]
    have hD5' : ∀ s tx, s < n → alookup (laneOf p.pending k) s = some tx →
        s ∈ (laneTxs.filter (fun e => e.1 < n)).map Prod.fst := by
      intro s tx hs htx
      refine (hmemTR s).mpr ⟨?_, hs⟩
      rw [← hlaneq, htx]
      rfl
    cases halt : alookup (((laneTxs.filter (fun e => e.1 < n)).map Prod.fst).foldl
        (fun a s => removeOne a k s) p).pending k with
    | none =>
      have hred : removeConfirmedTransactions p k n =
          ((laneTxs.filter (fun e => e.1 < n)).map Prod.fst).foldl
            (fun a s => removeOne a k s) p := by
        simp only [removeConfirmedTransactions, hpl, halt]
      rw [hred]
      exact ⟨hA', B, C, D4, fun s tx hs htx => D5 s tx (hD5' s tx hs htx) htx,
        fun h hh => D6 h (fun s tx hs htx =>
          hh s tx ((hmemTR s).mp hs).2 htx),
        D7, fun s tx hs htx => D8 s tx (hD5' s tx hs htx) htx,
        N9, N10, N11, N12⟩
    | some l =>
      have hlaneq1 : laneOf (((laneTxs.filter (fun e => e.1 < n)).map Prod.fst).foldl
          (fun a s => removeOne a k s) p).pending k = l := by
        unfold laneOf
        rw [halt]
        rfl
      by_cases hemp : l.isEmpty
      · have hred : removeConfirmedTransactions p k n =
            { ((laneTxs.filter (fun e => e.1 < n)).map Prod.fst).foldl
                (fun a s => removeOne a k s) p with
              pending := aerase (((laneTxs.filter (fun e => e.1 < n)).map
                Prod.fst).foldl (fun a s => removeOne a k s) p).pending k } := by
          simp only [removeConfirmedTransactions, hpl, halt, hemp, if_true]
        rw [hred]
        have hnil : l = [] := (isEmpty_iff_eq_nil l).mp hemp
        refine ⟨fun lane seq => ?_, B, C, D4,
          fun s tx hs htx => D5 s tx (hD5' s tx hs htx) htx,
          fun h hh => D6 h (fun s tx hs htx =>
            hh s tx ((hmemTR s).mp hs).2 htx),
          D7, fun s tx hs htx => D8 s tx (hD5' s tx hs htx) htx,
          nodupKeys_aerase _ _ N9, fun lane h => ?_, N11, N12⟩
        · show alookup (laneOf (aerase (((laneTxs.filter (fun e => e.1 < n)).map
            Prod.fst).foldl (fun a s => removeOne a k s) p).pending k) lane) seq = _
          by_cases hlk : lane = k
          · rw [hlk, laneOf_aerase_self _ _ N9]
            have hA2 := hA' k seq
            rw [hlaneq1, hnil] at hA2
            by_cases hc : seq < n
            · rw [if_pos ⟨rfl, hc⟩]
              rfl
            · rw [if_neg (fun hc2 => hc hc2.2)]
              rw [if_neg (fun hc2 => hc hc2.2)] at hA2
              exact hA2
          · rw [laneOf_aerase_ne _ _ _ hlk]
            have hA2 := hA' lane seq
            rw [if_neg (fun hc => hlk hc.1)] at hA2 ⊢
            exact hA2
        · show NodupKeys (laneOf (aerase (((laneTxs.filter (fun e => e.1 < n)).map
            Prod.fst).foldl (fun a s => removeOne a k s) p).pending k) lane)
          by_cases hlk : lane = k
          · rw [hlk, laneOf_aerase_self _ _ N9]
            exact List.nodup_nil
          · rw [laneOf_aerase_ne _ _ _ hlk]
            exact N10 lane h
      · have hred : removeConfirmedTransactions p k n =
            ((laneTxs.filter (fun e => e.1 < n)).map Prod.fst).foldl
              (fun a s => removeOne a k s) p := by
          simp only [removeConfirmedTransactions, hpl, halt, hemp, if_false,
            Bool.false_eq_true]
        rw [hred]
        exact ⟨hA', B, C, D4, fun s tx hs htx => D5 s tx (hD5' s tx hs htx) htx,
          fun h hh => D6 h (fun s tx hs htx =>
            hh s tx ((hmemTR s).mp hs).2 htx),
          D7, fun s tx hs htx => D8 s tx (hD5' s tx hs htx) htx,
          N9, N10, N11, N12⟩

/-! ## Preservation of the tracking and hash-uniqueness invariants -/

theorem byhash_mono (bh : List (Nat × Tx)) (txh : Nat) (tx : Tx) (h0 : Nat)
    (w : Tx) (hw : alookup bh h0 = some w) (hfresh : ¬ (alookup bh txh).isSome) :
    alookup (ainsert bh txh tx) h0 = some w := by
  rw [alookup_ainsert]
  by_cases he : h0 = txh
  · rw [he] at hw
    rw [hw] at hfresh
    exact absurd rfl hfresh
  · rw [if_neg he]
    exact hw

theorem occAt_true (p : TwoDPool) (l : SenderKey) (s : Nat) :
    occAt p true l s = alookup (laneOf p.pending l) s := rfl

theorem occAt_false (p : TwoDPool) (l : SenderKey) (s : Nat) :
    occAt p false l s = alookup (laneOf p.queued l) s := rfl

theorem poolWF_addToQueued (p : TwoDPool) (k : SenderKey) (seq : Nat) (tx : Tx)
    (h : PoolWF p) (hfresh : ¬ (alookup p.by_hash tx.hash).isSome) :
    PoolWF (addToQueued { p with by_hash := ainsert p.by_hash tx.hash tx }
      k seq tx) := by
  obtain ⟨hnd, ⟨T1, T2, T3⟩, HU⟩ := h
  have hnd1 : NodupInv (addToQueued { p with by_hash := ainsert p.by_hash tx.hash tx }
      k seq tx) :=
    nodupInv_addToQueued _ _ _ _ (nodupInv_byHashInsert p _ tx hnd)
  have hqchar : ∀ l s, alookup (laneOf (addToQueued
      { p with by_hash := ainsert p.by_hash tx.hash tx } k seq tx).queued l) s =
      if l = k ∧ s = seq then some tx else alookup (laneOf p.queued l) s := by
    intro l s
    show alookup (laneOf (laneInsert p.queued k seq tx) l) s = _
    rw [laneOf_laneInsert]
    by_cases hlk : l = k
    · rw [if_pos hlk, alookup_ainsert]
      by_cases hs : s = seq
      · rw [if_pos hs, if_pos ⟨hlk, hs⟩]
      · rw [if_neg hs, if_neg (fun hc => hs hc.2), hlk]
    · rw [if_neg hlk, if_neg (fun hc => hlk hc.1)]
  have hother : ∀ t1, alookup p.by_hash t1.hash = some t1 →
      alookup (ainsert p.by_hash tx.hash tx) t1.hash = some t1 :=
    fun t1 ht1 => byhash_mono _ _ _ _ _ ht1 hfresh
  have hnewhash : ∀ t1, alookup p.by_hash t1.hash = some t1 →
      t1.hash ≠ tx.hash := by
    intro t1 ht1 he
    rw [he] at ht1
    rw [ht1] at hfresh
    exact absurd rfl hfresh
  refine ⟨hnd1, ⟨fun lane s t ht => ?_, fun lane s t ht => ?_,
    fun K v hv => ?_⟩, ?_⟩
  · exact hother t (T1 lane s t ht)
  · rw [hqchar lane s] at ht
    by_cases hc : lane = k ∧ s = seq
    · rw [if_pos hc] at ht
      cases ht
      show alookup (ainsert p.by_hash tx.hash tx) tx.hash = some tx
      rw [alookup_ainsert, if_pos rfl]
    · rw [if_neg hc] at ht
      exact hother t (T2 lane s t ht)
  · obtain ⟨hK, hbv⟩ := T3 K v hv
    exact ⟨hK, hother v hbv⟩
  · intro c1 l1 s1 t1 c2 l2 s2 t2 h1 h2 hhash
    have hchar : ∀ c l s t, occAt (addToQueued
        { p with by_hash := ainsert p.by_hash tx.hash tx } k seq tx) c l s =
          some t →
        (c = false ∧ l = k ∧ s = seq ∧ t = tx) ∨ occAt p c l s = some t := by
      intro c l s t hls
      cases c
      · rw [occAt_false, hqchar l s] at hls
        by_cases hc : l = k ∧ s = seq
        · rw [if_pos hc] at hls
          cases hls
          exact Or.inl ⟨rfl, hc.1, hc.2, rfl⟩
        · rw [if_neg hc] at hls
          exact Or.inr hls
      · exact Or.inr hls
    have hoccbh : ∀ c l s t, occAt p c l s = some t →
        alookup p.by_hash t.hash = some t := by
      intro c l s t hls
      cases c
      · exact T2 l s t hls
      · exact T1 l s t hls
    rcases hchar c1 l1 s1 t1 h1 with ⟨hc1, hl1, hs1, ht1⟩ | hold1 <;>
      rcases hchar c2 l2 s2 t2 h2 with ⟨hc2, hl2, hs2, ht2⟩ | hold2
    · exact ⟨hc1.trans hc2.symm, hl1.trans hl2.symm, hs1.trans hs2.symm⟩
    · exfalso
      apply hnewhash t2 (hoccbh c2 l2 s2 t2 hold2)
      rw [← hhash, ht1]
    · exfalso
      apply hnewhash t1 (hoccbh c1 l1 s1 t1 hold1)
      rw [hhash, ht2]
    · exact HU c1 l1 s1 t1 c2 l2 s2 t2 hold1 hold2 hhash

theorem poolWF_addPendingFresh (p : TwoDPool) (k : SenderKey) (seq : Nat)
    (tx : Tx) (h : PoolWF p) (hfresh : ¬ (alookup p.by_hash tx.hash).isSome) :
    PoolWF (addPendingOrdering { p with by_hash := ainsert p.by_hash tx.hash tx }
      k seq tx) := by
  obtain ⟨hnd, ⟨T1, T2, T3⟩, HU⟩ := h
  have hnd1 : NodupInv (addPendingOrdering
      { p with by_hash := ainsert p.by_hash tx.hash tx } k seq tx) :=
    nodupInv_addPendingOrdering _ _ _ _ (nodupInv_byHashInsert p _ tx hnd)
  have hpchar : ∀ l s, alookup (laneOf (addPendingOrdering
      { p with by_hash := ainsert p.by_hash tx.hash tx } k seq tx).pending l) s =
      if l = k ∧ s = seq then some tx else alookup (laneOf p.pending l) s := by
    intro l s
    show alookup (laneOf (laneInsert p.pending k seq tx) l) s = _
    rw [laneOf_laneInsert]
    by_cases hlk : l = k
    · rw [if_pos hlk, alookup_ainsert]
      by_cases hs : s = seq
      · rw [if_pos hs, if_pos ⟨hlk, hs⟩]
      · rw [if_neg hs, if_neg (fun hc => hs hc.2), hlk]
    · rw [if_neg hlk, if_neg (fun hc => hlk hc.1)]
  have hother : ∀ t1, alookup p.by_hash t1.hash = some t1 →
      alookup (ainsert p.by_hash tx.hash tx) t1.hash = some t1 :=
    fun t1 ht1 => byhash_mono _ _ _ _ _ ht1 hfresh
  have hnewhash : ∀ t1, alookup p.by_hash t1.hash = some t1 →
      t1.hash ≠ tx.hash := by
    intro t1 ht1 he
    rw [he] at ht1
    rw [ht1] at hfresh
    exact absurd rfl hfresh
  refine ⟨hnd1, ⟨fun lane s t ht => ?_, fun lane s t ht => ?_,
    fun K v hv => ?_⟩, ?_⟩
  · rw [hpchar lane s] at ht
    by_cases hc : lane = k ∧ s = seq
    · rw [if_pos hc] at ht
      cases ht
      show alookup (ainsert p.by_hash tx.hash tx) tx.hash = some tx
      rw [alookup_ainsert, if_pos rfl]
    · rw [if_neg hc] at ht
      exact hother t (T1 lane s t ht)
  · exact hother t (T2 lane s t ht)
  · have hv' : alookup (ainsert p.ordering (txOrderingKey tx) tx) K = some v := hv
    rw [alookup_ainsert] at hv'
    by_cases hK : K = txOrderingKey tx
    · rw [if_pos hK] at hv'
      cases hv'
      refine ⟨hK, ?_⟩
      show alookup (ainsert p.by_hash tx.hash tx) tx.hash = some tx
      rw [alookup_ainsert, if_pos rfl]
    · rw [if_neg hK] at hv'
      obtain ⟨h1, h2⟩ := T3 K v hv'
      exact ⟨h1, hother v h2⟩
  · intro c1 l1 s1 t1 c2 l2 s2 t2 h1 h2 hhash
    have hchar : ∀ c l s t, occAt (addPendingOrdering
        { p with by_hash := ainsert p.by_hash tx.hash tx } k seq tx) c l s =
          some t →
        (c = true ∧ l = k ∧ s = seq ∧ t = tx) ∨ occAt p c l s = some t := by
      intro c l s t hls
      cases c
      · exact Or.inr hls
      · rw [occAt_true, hpchar l s] at hls
        by_cases hc : l = k ∧ s = seq
        · rw [if_pos hc] at hls
          cases hls
          exact Or.inl ⟨rfl, hc.1, hc.2, rfl⟩
        · rw [if_neg hc] at hls
          exact Or.inr hls
    have hoccbh : ∀ c l s t, occAt p c l s = some t →
        alookup p.by_hash t.hash = some t := by
      intro c l s t hls
      cases c
      · exact T2 l s t hls
      · exact T1 l s t hls
    rcases hchar c1 l1 s1 t1 h1 with ⟨hc1, hl1, hs1, ht1⟩ | hold1 <;>
      rcases hchar c2 l2 s2 t2 h2 with ⟨hc2, hl2, hs2, ht2⟩ | hold2
    · exact ⟨hc1.trans hc2.symm, hl1.trans hl2.symm, hs1.trans hs2.symm⟩
    · exfalso
      apply hnewhash t2 (hoccbh c2 l2 s2 t2 hold2)
      rw [← hhash, ht1]
    · exfalso
      apply hnewhash t1 (hoccbh c1 l1 s1 t1 hold1)
      rw [hhash, ht2]
    · exact HU c1 l1 s1 t1 c2 l2 s2 t2 hold1 hold2 hhash

theorem poolWF_promoteChain (p : TwoDPool) (k : SenderKey) (start : Nat)
    (h : PoolWF p) : PoolWF (promoteQueuedChain p k start) := by
  obtain ⟨hnd, ⟨T1, T2, T3⟩, HU⟩ := h
  obtain ⟨m, L1, L2, Q3, P4, O5, B6, N7, _, _, _, _, _⟩ :=
    promoteChain_char p k start hnd.2.1 (hnd.2.2.2.2.2.2 k)
  refine ⟨nodupInv_promoteChain p k start hnd, ⟨fun lane s t ht => ?_,
    fun lane s t ht => ?_, fun K v hv => ?_⟩, ?_⟩
  · rw [P4 lane s] at ht
    rw [B6]
    by_cases hc : lane = k ∧ start ≤ s ∧ s < start + m
    · rw [if_pos hc] at ht
      exact T2 k s t ht
    · rw [if_neg hc] at ht
      exact T1 lane s t ht
  · rw [Q3 lane s] at ht
    rw [B6]
    by_cases hc : lane = k ∧ start ≤ s ∧ s < start + m
    · rw [if_pos hc] at ht
      cases ht
    · rw [if_neg hc] at ht
      exact T2 lane s t ht
  · rw [B6]
    rcases O5 K v hv with hold | ⟨hK, s, hs1, hs2, hq⟩
    · exact T3 K v hold
    · exact ⟨hK, T2 k s v hq⟩
  · intro c1 l1 s1 t1 c2 l2 s2 t2 h1 h2 hhash
    have key : ∀ c l s t, occAt (promoteQueuedChain p k start) c l s = some t →
        (c = true ∧ l = k ∧ (start ≤ s ∧ s < start + m) ∧
          occAt p false k s = some t) ∨
        (¬ (l = k ∧ start ≤ s ∧ s < start + m) ∧ occAt p c l s = some t) := by
      intro c l s t hls
      cases c
      · rw [occAt_false, Q3 l s] at hls
        by_cases hc : l = k ∧ start ≤ s ∧ s < start + m
        · rw [if_pos hc] at hls
          cases hls
        · rw [if_neg hc] at hls
          exact Or.inr ⟨hc, hls⟩
      · rw [occAt_true, P4 l s] at hls
        by_cases hc : l = k ∧ start ≤ s ∧ s < start + m
        · rw [if_pos hc] at hls
          exact Or.inl ⟨rfl, hc.1, ⟨hc.2.1, hc.2.2⟩, hls⟩
        · rw [if_neg hc] at hls
          exact Or.inr ⟨hc, hls⟩
    rcases key c1 l1 s1 t1 h1 with ⟨hc1, hl1, hw1, ho1⟩ | ⟨hn1, ho1⟩ <;>
      rcases key c2 l2 s2 t2 h2 with ⟨hc2, hl2, hw2, ho2⟩ | ⟨hn2, ho2⟩
    · obtain ⟨_, _, hss⟩ := HU false k s1 t1 false k s2 t2 ho1 ho2 hhash
      exact ⟨hc1.trans hc2.symm, hl1.trans hl2.symm, hss⟩
    · obtain ⟨hcc, hll, hss⟩ := HU false k s1 t1 c2 l2 s2 t2 ho1 ho2 hhash
      exact absurd ⟨hll.symm, hss ▸ hw1⟩ hn2
    · obtain ⟨hcc, hll, hss⟩ := HU c1 l1 s1 t1 false k s2 t2 ho1 ho2 hhash
      exact absurd ⟨hll, hss.symm ▸ hw2⟩ hn1
    · exact HU c1 l1 s1 t1 c2 l2 s2 t2 ho1 ho2 hhash

theorem poolWF_removeConfirmed (p : TwoDPool) (k : SenderKey) (n : Nat)
    (h : PoolWF p) : PoolWF (removeConfirmedTransactions p k n) := by
  obtain ⟨hnd, ⟨T1, T2, T3⟩, HU⟩ := h
  obtain ⟨A, B, C, D4, D5, D6, D7, D8, N9, N10, N11, N12⟩ :=
    removeConfirmed_char p k n hnd.1 (hnd.2.2.2.2.2.1 k) hnd.2.2.2.2.1
      hnd.2.2.1
  have hnd' : NodupInv (removeConfirmedTransactions p k n) := by
    obtain ⟨h1, h2, h3, h4, h5, h6, h7⟩ := hnd
    refine ⟨N9, by rw [B]; exact h2, N12, by rw [C]; exact h4, N11,
      fun lane => N10 lane (h6 lane), fun lane => ?_⟩
    rw [show laneOf (removeConfirmedTransactions p k n).queued lane =
      laneOf p.queued lane from by rw [B]]
    exact h7 lane
  have huniq : ∀ t s' tx', alookup p.by_hash t.hash = some t → s' < n →
      alookup (laneOf p.pending k) s' = some tx' → tx'.hash = t.hash →
      tx' = t := by
    intro t s' tx' hb hs' htx' he
    have hbb := T1 k s' tx' htx'
    rw [he, hb] at hbb
    cases hbb
    rfl
  refine ⟨hnd', ⟨fun lane s t ht => ?_, fun lane s t ht => ?_,
    fun K v hv => ?_⟩, ?_⟩
  · rw [A lane s] at ht
    by_cases hc : lane = k ∧ s < n
    · rw [if_pos hc] at ht
      cases ht
    · rw [if_neg hc] at ht
      have hb := T1 lane s t ht
      have hne : ∀ s' tx', s' < n → alookup (laneOf p.pending k) s' = some tx' →
          tx'.hash ≠ t.hash := by
        intro s' tx' hs' htx' he
        have he2 := huniq t s' tx' hb hs' htx' he
        subst he2
        obtain ⟨_, hll, hss⟩ :=
          HU true k s' tx' true lane s tx' htx' ht rfl
        exact hc ⟨hll.symm, by rw [← hss]; exact hs'⟩
      rw [D6 t.hash hne]
      exact hb
  · have ht' : alookup (laneOf p.queued lane) s = some t := by
      rw [show laneOf (removeConfirmedTransactions p k n).queued lane =
        laneOf p.queued lane from by rw [B]] at ht
      exact ht
    have hb := T2 lane s t ht'
    have hne : ∀ s' tx', s' < n → alookup (laneOf p.pending k) s' = some tx' →
        tx'.hash ≠ t.hash := by
      intro s' tx' hs' htx' he
      have he2 := huniq t s' tx' hb hs' htx' he
      subst he2
      obtain ⟨hcc, _, _⟩ :=
        HU true k s' tx' false lane s tx' htx' ht' rfl
      cases hcc
    rw [D6 t.hash hne]
    exact hb
  · have hold := D7 K v hv
    obtain ⟨hK, hb⟩ := T3 K v hold
    have hne : ∀ s' tx', s' < n → alookup (laneOf p.pending k) s' = some tx' →
        tx'.hash ≠ v.hash := by
      intro s' tx' hs' htx' he
      have he2 := huniq v s' tx' hb hs' htx' he
      have hnone := D8 s' tx' hs' htx'
      rw [he2, ← hK, hv] at hnone
      cases hnone
    refine ⟨hK, ?_⟩
    rw [D6 v.hash hne]
    exact hb
  · intro c1 l1 s1 t1 c2 l2 s2 t2 h1 h2 hhash
    have key : ∀ c l s t,
        occAt (removeConfirmedTransactions p k n) c l s = some t →
        occAt p c l s = some t := by
      intro c l s t hls
      cases c
      · rw [occAt_false] at hls ⊢
        rw [show laneOf (removeConfirmedTransactions p k n).queued l =
          laneOf p.queued l from by rw [B]] at hls
        exact hls
      · rw [occAt_true] at hls ⊢
        rw [A l s] at hls
        by_cases hc : l = k ∧ s < n
        · rw [if_pos hc] at hls
          cases hls
        · rw [if_neg hc] at hls
          exact hls
    exact HU c1 l1 s1 t1 c2 l2 s2 t2 (key c1 l1 s1 t1 h1)
      (key c2 l2 s2 t2 h2) hhash

theorem poolWF_setSeq (p : TwoDPool) (k : SenderKey) (s : Nat) (h : PoolWF p) :
    PoolWF (setOnChainSequence p k s) := by
  obtain ⟨⟨h1, h2, h3, h4, h5, h6, h7⟩, T, HU⟩ := h
  exact ⟨⟨h1, h2, h3, nodupKeys_ainsert _ _ _ h4, h5, h6, h7⟩, T, HU⟩

theorem poolWF_addTransaction (p : TwoDPool) (tx : Tx) (nk : U192Key)
    (seq : Nat) (h : PoolWF p) : PoolWF (addTransaction p tx nk seq).2 := by
  by_cases hdup : (alookup p.by_hash tx.hash).isSome
  · rw [addTransaction_reduce_dup p tx nk seq hdup]
    exact h
  · by_cases hlt : seq < getOnChainSequence p (tx.sender, nk)
    · rw [addTransaction_reduce_stale p tx nk seq hdup hlt]
      exact h
    · by_cases heq : seq = getOnChainSequence p (tx.sender, nk)
      · rw [addTransaction_reduce_pending p tx nk seq hdup heq]
        exact poolWF_promoteChain _ _ _
          (poolWF_addPendingFresh p (tx.sender, nk) seq tx h hdup)
      · rw [addTransaction_reduce_queued p tx nk seq hdup hlt heq]
        exact poolWF_addToQueued p (tx.sender, nk) seq tx h hdup

theorem poolWF_applyUpdate (p : TwoDPool) (u : SenderKey × Nat) (h : PoolWF p) :
    PoolWF (applyUpdate p u) :=
  poolWF_promoteChain _ _ _
    (poolWF_removeConfirmed _ _ _ (poolWF_setSeq p u.1 u.2 h))

theorem poolWF_canonical : ∀ (updates : List (SenderKey × Nat)) (p : TwoDPool),
    PoolWF p → PoolWF (onCanonicalStateChange p updates) := by
  intro updates
  induction updates with
  | nil => exact fun p h => h
  | cons u rest ih =>
    intro p h
    exact ih (applyUpdate p u) (poolWF_applyUpdate p u h)

theorem poolWF_applyOp (p : TwoDPool) (op : PoolOp) (h : PoolWF p) :
    PoolWF (applyOp p op) := by
  cases op with
  | add tx nk seq => exact poolWF_addTransaction p tx nk seq h
  | canonical updates => exact poolWF_canonical updates p h
  | setSeq k seq => exact poolWF_setSeq p k seq h

theorem poolWF_empty : PoolWF emptyPool := by
  refine ⟨nodupInv_empty, ⟨fun lane s t ht => ?_, fun lane s t ht => ?_,
    fun K v hv => ?_⟩, fun c1 l1 s1 t1 c2 l2 s2 t2 h1 h2 hh => ?_⟩
  · exact Option.noConfusion ht
  · exact Option.noConfusion ht
  · exact Option.noConfusion hv
  · cases c1 <;> exact Option.noConfusion h1

theorem poolWF_runOps : ∀ (ops : List PoolOp) (p : TwoDPool), PoolWF p →
    PoolWF (runOps p ops) := by
  intro ops
  induction ops with
  | nil => exact fun p h => h
  | cons op rest ih =>
    intro p h
    exact ih (applyOp p op) (poolWF_applyOp p op h)

/-! ## Claim C2: the ordering and hash-index correspondence -/

theorem notInPending_of_all (P : List (SenderKey × LaneMap)) (tx : Tx)
    (hall : P.all (fun pr => pr.2.all (fun e => decide (e.2 ≠ tx))) = true) :
    ¬ (∃ lane s, alookup (laneOf P lane) s = some tx) := by
  rintro ⟨lane, s, hls⟩
  cases hpl : alookup P lane with
  | none =>
    rw [show laneOf P lane = [] from by unfold laneOf; rw [hpl]; rfl] at hls
    exact Option.noConfusion hls
  | some L =>
    rw [show laneOf P lane = L from by unfold laneOf; rw [hpl]; rfl] at hls
    have hmemL := mem_of_alookup _ _ _ hls
    have hmemP := mem_of_alookup _ _ _ hpl
    have h1 := List.all_eq_true.mp hall (lane, L) hmemP
    have h2 := List.all_eq_true.mp h1 (s, tx) hmemL
    simp at h2

theorem notInOrdering_of_all (O : List ((Nat × Nat × Nat) × Tx)) (tx : Tx)
    (hall : O.all (fun pr => decide (pr.2 ≠ tx)) = true) :
    ¬ (∃ K, alookup O K = some tx) := by
  rintro ⟨K, hK⟩
  have hmem := mem_of_alookup _ _ _ hK
  have h1 := List.all_eq_true.mp hall (K, tx) hmem
  simp at h1

/-- C2 counterexample.  The claimed three-way correspondence fails: in
`poolTopGap` the queued transaction `txSeq1` is in `by_hash` but not in
`pending`; in `poolOverwrite` the overwritten transaction is still an
`ordering` value but no longer pending; in `poolShadow` the shadowed
transaction is pending but no longer an `ordering` value (its slot was
overwritten by a transaction with the same tip, truncated sender id and
nonce from another lane). -/
theorem hash_invariant_counterexample :
    ¬ ClaimedHashInvariant poolTopGap ∧
    (InOrdering poolOverwrite txOverwritten ∧
      ¬ InPending poolOverwrite txOverwritten) ∧
    (InPending poolShadow txShadowed ∧ ¬ InOrdering poolShadow txShadowed) := by
  refine ⟨fun h => ?_, ⟨⟨txOrderingKey txOverwritten, by decide⟩,
      notInPending_of_all poolOverwrite.pending txOverwritten (by decide)⟩,
    ⟨⟨laneA, 0, by decide⟩,
      notInOrdering_of_all poolShadow.ordering txShadowed (by decide)⟩⟩
  exact notInPending_of_all poolTopGap.pending txSeq1 (by decide)
    ((h.2 txSeq1).mpr (by decide))

/-- C2 amended.  In every reachable pool state, every transaction held in
`pending`, held in `queued`, or stored as a value of the `ordering` index is
recorded in `by_hash` under its own hash (and each `ordering` binding sits at
the key computed from its value).  The converse inclusions of the claim fail:
`by_hash` also holds every queued transaction, and transactions evicted by a
same-sequence or same-ordering-key overwrite linger in `by_hash` or
`ordering` without being pending (see the counterexample). -/
theorem tracked_by_hash_invariant (ops : List PoolOp) :
    TrackedByHash (runOps emptyPool ops) :=
  (poolWF_runOps ops emptyPool poolWF_empty).2.1

/-- Witness for C2 amended on a concrete history. -/
theorem tracked_by_hash_invariant_witness :
    TrackedByHash (runOps emptyPool
      [PoolOp.add txSeq0 key1 0, PoolOp.add txSeq1 key1 1]) :=
  tracked_by_hash_invariant [PoolOp.add txSeq0 key1 0, PoolOp.add txSeq1 key1 1]

/-! ## Claim C10: canonical updates never evict stale queued transactions -/

/-- C10: processing the canonical update `(lane, n)` leaves every queued entry
of that lane with sequence below `n` in place: the transaction is still in
`queued[lane]` at its sequence afterwards, and its hash is still in `by_hash`
(removal only evicts pending entries below `n`, and promotion only consumes
queued entries at sequences `n, n+1, ...`), so stale queued transactions keep
blocking re-submission of the same hash. -/
theorem canonical_keeps_stale_queued (p : TwoDPool) (lane : SenderKey)
    (n seq : Nat) (tx : Tx) (hwf : PoolWF p)
    (hsq : alookup (laneOf p.queued lane) seq = some tx)
    (hlt : seq < n) :
    alookup (laneOf (onCanonicalStateChange p [(lane, n)]).queued lane) seq
        = some tx ∧
    alookup (onCanonicalStateChange p [(lane, n)]).by_hash tx.hash
        = some tx := by
  obtain ⟨⟨h1, h2, h3, h4, h5, h6, h7⟩, ⟨T1, T2, T3⟩, HU⟩ := hwf
  have hhash : alookup p.by_hash tx.hash = some tx := T2 lane seq tx hsq
  have hstep : onCanonicalStateChange p [(lane, n)] =
      promoteQueuedChain (removeConfirmedTransactions
        { p with nonce_state := ainsert p.nonce_state lane n } lane n)
        lane n := rfl
  rw [hstep]
  obtain ⟨A, B, _, _, _, D6, _, _, _, _, _, _⟩ :=
    removeConfirmed_char
      { p with nonce_state := ainsert p.nonce_state lane n } lane n
      h1 (h6 lane) h5 h3
  have hq' : NodupKeys (removeConfirmedTransactions
      { p with nonce_state := ainsert p.nonce_state lane n } lane n).queued := by
    rw [B]; exact h2
  have hlq' : NodupKeys (laneOf (removeConfirmedTransactions
      { p with nonce_state := ainsert p.nonce_state lane n } lane n).queued
        lane) := by
    rw [B]; exact h7 lane
  obtain ⟨m, _, _, G3, _, _, G6, _, _, _, _, _, _⟩ :=
    promoteChain_char (removeConfirmedTransactions
      { p with nonce_state := ainsert p.nonce_state lane n } lane n)
      lane n hq' hlq'
  constructor
  · rw [G3 lane seq, if_neg (fun hc => absurd hc.2.1 (by omega)), B]
    exact hsq
  · have hno : ∀ s tx', s < n →
        alookup (laneOf ({ p with
          nonce_state := ainsert p.nonce_state lane n } : TwoDPool).pending
          lane) s = some tx' →
        tx'.hash ≠ tx.hash := by
      intro s tx' _ htx' heq
      have ho1 : occAt p true lane s = some tx' := htx'
      have ho2 : occAt p false lane seq = some tx := hsq
      exact Bool.noConfusion (HU true lane s tx' false lane seq tx ho1 ho2 heq).1
    rw [G6, D6 tx.hash hno]
    exact hhash

/-- Witness for C10 on a concrete stale-queued scenario. -/
theorem canonical_keeps_stale_queued_witness :
    alookup (laneOf (onCanonicalStateChange
        (addTransaction emptyPool txSeq3 key1 3).2 [(laneA, 4)]).queued laneA) 3
      = some txSeq3 ∧
    alookup (onCanonicalStateChange (addTransaction emptyPool txSeq3 key1 3).2
        [(laneA, 4)]).by_hash txSeq3.hash = some txSeq3 :=
  canonical_keeps_stale_queued (addTransaction emptyPool txSeq3 key1 3).2
    laneA 4 3 txSeq3 (poolWF_addTransaction emptyPool txSeq3 key1 3 poolWF_empty)
    (by decide) (by decide)
